import Mathlib

/-!
Verification development for the rushstack monorepo build orchestrator.

The task execution core (TaskRunner, Task, StreamCollator) is embedded as an
executable transition system; components whose implementation files are not
part of the source snapshot are modelled from the specification and marked as
such in their doc comments.  PackageJsonEditor.setVersion and
RushConfiguration.findProjectByShorthandName are embedded directly from their
source files.
-/

namespace RushStack

/-- Task status state machine from the spec's data model (TaskStatus.ts). -/
inductive TaskStatus where
  | ready
  | executing
  | success
  | successWithWarning
  | skipped
  | fromCache
  | failure
  | blocked
deriving DecidableEq, Repr

/-- A status is resolved (terminal) when the scheduler will never change it again:
every status except `ready` and `executing`. -/
def TaskStatus.isResolved : TaskStatus → Bool
  | .ready => false
  | .executing => false
  | _ => true

/-- The success family used for downstream gating: Success, SuccessWithWarning,
Skipped, FromCache. -/
def TaskStatus.isSuccessFamily : TaskStatus → Bool
  | .success => true
  | .successWithWarning => true
  | .skipped => true
  | .fromCache => true
  | _ => false

/-- A status held by a task whose builder has been invoked: `executing` or any
builder-produced resolution.  `ready` and `blocked` tasks were never dispatched. -/
def TaskStatus.isStarted : TaskStatus → Bool
  | .ready => false
  | .blocked => false
  | _ => true

/-- What a Builder can return from executeAsync (the near-terminal statuses). -/
inductive BuilderResult where
  | success
  | successWithWarning
  | skipped
  | fromCache
  | failure
deriving DecidableEq, Repr

def BuilderResult.toStatus : BuilderResult → TaskStatus
  | .success => .success
  | .successWithWarning => .successWithWarning
  | .skipped => .skipped
  | .fromCache => .fromCache
  | .failure => .failure

/-- The operation/task graph: task `t` has the list of direct upstream
dependencies `upstream[t]` (tasks that must finish before `t`). -/
structure TaskGraph where
  upstream : List (List Nat)
deriving DecidableEq, Repr

/-- Number of tasks in the graph. -/
def TaskGraph.n (g : TaskGraph) : Nat := g.upstream.length

/-- Direct upstream dependencies of task `t`. -/
def TaskGraph.upstreamOf (g : TaskGraph) (t : Nat) : List Nat := g.upstream.getD t []

/-- `DependsOn g t u`: task `t` transitively depends on task `u`
(equivalently, `u` is transitively upstream of `t`, and `t` is transitively
downstream of `u`). -/
def DependsOn (g : TaskGraph) (t u : Nat) : Prop :=
  Relation.TransGen (fun a b => b ∈ g.upstreamOf a) t u

/-- All upstream references stay inside the graph. -/
def TaskGraph.WellFormed (g : TaskGraph) : Prop :=
  ∀ t, t < g.n → ∀ u ∈ g.upstreamOf t, u < g.n

/-- Run-scoped mutable scheduler state: per-task status plus the list of tasks
whose Builder has been invoked, in dispatch order. -/
structure ExecState where
  status : List TaskStatus
  invoked : List Nat
deriving DecidableEq, Repr

/-- Modelled from the spec: step 1 of the scheduler algorithm initializes all
tasks to `Ready`; no builder has been invoked. -/
def initState (n : Nat) : ExecState :=
  ⟨List.replicate n .ready, []⟩

/-- Number of tasks currently in the `Executing` state. -/
def countExecuting (st : List TaskStatus) : Nat :=
  (st.filter (fun s => s == TaskStatus.executing)).length

/-- Number of tasks currently in the `Ready` state (used as a termination
measure for blocked-status propagation). -/
def countReady (st : List TaskStatus) : Nat :=
  (st.filter (fun s => s == TaskStatus.ready)).length

/-- Task `t` has a direct upstream dependency that resolved to `Failure` or
`Blocked`. -/
def blockedUpstream (g : TaskGraph) (st : List TaskStatus) (t : Nat) : Prop :=
  ∃ u ∈ g.upstreamOf t, st.getD u .ready = .failure ∨ st.getD u .ready = .blocked

instance (g : TaskGraph) (st : List TaskStatus) (t : Nat) :
    Decidable (blockedUpstream g st t) := by
  unfold blockedUpstream; infer_instance

/-- One propagation pass over the suffix `l` of the status list (the full list
`stFull` supplies upstream statuses; `t` is the index of the head of `l`):
a `Ready` task with a failed or blocked direct upstream becomes `Blocked`. -/
def blockPassAux (g : TaskGraph) (stFull : List TaskStatus) :
    Nat → List TaskStatus → List TaskStatus
  | _, [] => []
  | t, s :: rest =>
    (if s = .ready ∧ blockedUpstream g stFull t then .blocked else s) ::
      blockPassAux g stFull (t + 1) rest

/-- Modelled from the spec: one breadth-first wave of marking downstream tasks
of failures/blocked tasks as `Blocked`. -/
def blockPass (g : TaskGraph) (st : List TaskStatus) : List TaskStatus :=
  blockPassAux g st 0 st

/-- Iterate `f` until a fixpoint is reached, with explicit fuel. -/
def iterFix {α : Type} [DecidableEq α] (f : α → α) : Nat → α → α
  | 0, x => x
  | fuel + 1, x =>
    let y := f x
    if y = x then x else iterFix f fuel y

/-- Modelled from the spec: transitively mark every not-yet-resolved downstream
task of a failure as `Blocked` (idempotent; reaches a fixpoint within
`length + 1` waves because each non-trivial wave blocks at least one task). -/
def blockFix (g : TaskGraph) (fuel : Nat) (st : List TaskStatus) : List TaskStatus :=
  iterFix (blockPass g) fuel st

/-- The scheduler run configuration: the graph, the (deterministic) result each
task's Builder returns when invoked, and the parallelism bound. -/
structure RunConfig where
  g : TaskGraph
  outcome : List BuilderResult
  parallelism : Nat

/-- Modelled from the spec: step 4 of the scheduler algorithm.  Record the
Builder's returned status onto the task; if the status is `Failure`,
transitively mark every not-yet-resolved downstream task as `Blocked`. -/
def resolveTask (cfg : RunConfig) (st : List TaskStatus) (t : Nat) : List TaskStatus :=
  let r : BuilderResult := cfg.outcome.getD t .success
  let st1 : List TaskStatus := st.set t r.toStatus
  if r = .failure then blockFix cfg.g (st1.length + 1) st1 else st1

/-- Modelled from the spec: the scheduler's small-step transition relation.
`dispatch` moves a `Ready` task with all direct upstream dependencies in the
success family to `Executing`, invoking its Builder, provided a worker slot is
free (fewer than `parallelism` tasks executing).  Which eligible task is picked
abstracts over the criticalPathLength priority queue: any safety property
proved over this relation holds for every concrete dispatch order.
`complete` resolves an `Executing` task to its Builder's returned status and,
on failure, blocks the transitive downstream tasks. -/
inductive Step (cfg : RunConfig) : ExecState → ExecState → Prop where
  | dispatch (s : ExecState) (t : Nat) :
      t < s.status.length →
      s.status.getD t .ready = .ready →
      (∀ u ∈ cfg.g.upstreamOf t, (s.status.getD u .ready).isSuccessFamily = true) →
      countExecuting s.status < cfg.parallelism →
      Step cfg s ⟨s.status.set t .executing, s.invoked ++ [t]⟩
  | complete (s : ExecState) (t : Nat) :
      t < s.status.length →
      s.status.getD t .ready = .executing →
      Step cfg s ⟨resolveTask cfg s.status t, s.invoked⟩

/-- States reachable during a run of executeAsync. -/
def Reachable (cfg : RunConfig) (s : ExecState) : Prop :=
  Relation.ReflTransGen (Step cfg) (initState cfg.g.n) s

/-- How a single propagation pass may change one task's status: unchanged, or
`Ready` to `Blocked`. -/
def BlockRel (a b : TaskStatus) : Prop :=
  b = a ∨ (a = .ready ∧ b = .blocked)

/-- Every blocked task transitively depends on some failed task. -/
def Bprop (g : TaskGraph) (st : List TaskStatus) : Prop :=
  ∀ t, t < st.length → st.getD t .ready = .blocked →
    ∃ f, f < st.length ∧ st.getD f .ready = .failure ∧ DependsOn g t f

/-- The inductive invariant carried across all reachable states of the
scheduler: statuses have the right length; a dispatched or resolved (started)
task saw all its direct upstream dependencies in the success family; no
`Ready` task has a failed or blocked direct upstream (blocked propagation is
complete); every `Blocked` task transitively depends on a failed task; the
invoked list is exactly the started tasks; the parallelism bound holds. -/
structure Inv (cfg : RunConfig) (s : ExecState) : Prop where
  len_eq : s.status.length = cfg.g.n
  upstream_success : ∀ t, t < s.status.length →
    (s.status.getD t .ready).isStarted = true →
    ∀ u ∈ cfg.g.upstreamOf t, (s.status.getD u .ready).isSuccessFamily = true
  ready_no_bu : ∀ t, t < s.status.length →
    s.status.getD t .ready = .ready → ¬ blockedUpstream cfg.g s.status t
  blocked_anc : Bprop cfg.g s.status
  invoked_iff : ∀ t, t ∈ s.invoked ↔
    (t < s.status.length ∧ (s.status.getD t .ready).isStarted = true)
  exec_le : countExecuting s.status ≤ cfg.parallelism

/-- Modelled from the spec: step 6 of the scheduler algorithm — the overall run
fails (non-zero exit / rejected promise) iff some task resolved to `Failure`,
or some task resolved to `SuccessWithWarning` while
`allowWarningsInSuccessfulBuild` is false. -/
def runFails (allowWarningsInSuccessfulBuild : Bool) (st : List TaskStatus) : Bool :=
  st.any (fun x => x == TaskStatus.failure)
    || (st.any (fun x => x == TaskStatus.successWithWarning)
          && !allowWarningsInSuccessfulBuild)

/-- Decimal value of a digit string (0 when empty). -/
def digitsToNat (l : List Char) : Nat :=
  l.foldl (fun acc c => acc * 10 + (c.toNat - 48)) 0

/-- A parallelism option parses as a positive integer when it is all decimal
digits with a positive value. -/
def parsePositiveInt (value : String) : Option Nat :=
  if value.data.all Char.isDigit ∧ 0 < digitsToNat value.data then
    some (digitsToNat value.data)
  else none

/-- Modelled from the spec: `parallelism` is a positive integer or the reserved
token for using all available cores; anything else is a configuration error. -/
def parseParallelism (numCores : Nat) (value : String) : Option Nat :=
  if value = "max" then some numCores else parsePositiveInt value

/-- Modelled from the spec: TaskRunner construction fails fast — before any
task runs — when the parallelism option cannot be parsed; otherwise it yields
the run configuration together with the initial all-`Ready` state. -/
def mkTaskRunner (numCores : Nat) (g : TaskGraph) (outcome : List BuilderResult)
    (value : String) : Except String (RunConfig × ExecState) :=
  match parseParallelism numCores value with
  | none => Except.error ("Invalid parallelism value: " ++ value)
  | some p => Except.ok ({ g := g, outcome := outcome, parallelism := p }, initState g.n)

/-! ### Stream collator model -/

inductive StreamKind where
  | stdoutStream
  | stderrStream
deriving DecidableEq, Repr

/-- One write issued by a task's Builder through its collated terminal sink. -/
structure WriteEvent where
  taskId : Nat
  kind : StreamKind
  text : String
deriving DecidableEq, Repr

/-- Modelled from the spec: the collator keeps one private accumulation buffer
per task; there is no shared global buffer. -/
structure CollatorState where
  bufs : Nat → List (StreamKind × String)

/-- Modelled from the spec: each write is appended, tagged by stream, to the
writing task's private buffer only. -/
def applyWrite (s : CollatorState) (e : WriteEvent) : CollatorState :=
  ⟨fun j => if j = e.taskId then s.bufs j ++ [(e.kind, e.text)] else s.bufs j⟩

/-- Apply a whole interleaved trace of writes (possibly from many concurrently
running tasks) in wall-clock order. -/
def applyTrace (s : CollatorState) (tr : List WriteEvent) : CollatorState :=
  tr.foldl applyWrite s

def initCollator : CollatorState := ⟨fun _ => []⟩

/-- Modelled from the spec: `getOutput(taskId)` replays a single task's buffer
contiguously, in write order. -/
def getOutput (s : CollatorState) (id : Nat) : String :=
  String.join ((s.bufs id).map (fun p => p.2))

/-! ### End-of-run report model -/

/-- The per-task data available to the end-of-run summary writer. -/
structure TaskRecord where
  name : String
  status : TaskStatus
  stdoutText : String
  stderrText : String
deriving DecidableEq, Repr

/-- Modelled from the spec: the final output of a run.  Quiet mode suppresses
the ordinary transcript, but the retained stderr of every `Failure` task is
always shown in full, and `Blocked` tasks are summarized tersely
(count + names) without repeating output. -/
def finalReport (quietMode : Bool) (tasks : List TaskRecord) : List String :=
  (if quietMode then [] else tasks.map (fun t => t.stdoutText))
    ++ (tasks.filter (fun t => t.status == TaskStatus.failure)).map
        (fun t => t.stderrText)
    ++ [toString (tasks.filter (fun t => t.status == TaskStatus.blocked)).length]
    ++ (tasks.filter (fun t => t.status == TaskStatus.blocked)).map (fun t => t.name)

/-! ### Operation graph builder and cycle detection -/

/-- Modelled from the spec: one round of the operation graph builder's
topological ordering — append every not-yet-ordered operation all of whose
upstream dependencies are already ordered. -/
def topoRound (g : TaskGraph) (done : List Nat) : List Nat :=
  done ++ (List.range g.n).filter
    (fun t => decide (t ∉ done) && (g.upstreamOf t).all (fun u => decide (u ∈ done)))

/-- Iterate ordering rounds to a fixpoint. -/
def topoIter (g : TaskGraph) (fuel : Nat) (done : List Nat) : List Nat :=
  iterFix (topoRound g) fuel done

/-- Pick an upstream dependency that is not yet ordered (total with junk value
0; meaningful on the stuck set, where one always exists). -/
def chooseUndone (g : TaskGraph) (done : List Nat) (t : Nat) : Nat :=
  ((g.upstreamOf t).find? (fun u => decide (u ∉ done))).getD 0

/-- Follow `f` from `cur`, accumulating the visited path, until a node repeats;
return the cycle (the path segment from the first occurrence of the repeated
node). -/
def walkToCycle (f : Nat → Nat) : Nat → List Nat → Nat → List Nat
  | 0, path, _ => path
  | fuel + 1, path, cur =>
    if cur ∈ path then path.drop (path.indexOf cur)
    else walkToCycle f fuel (path ++ [cur]) (f cur)

/-- Extract one concrete cycle from the stuck set left by the ordering rounds. -/
def extractCycle (g : TaskGraph) (done : List Nat) : List Nat :=
  match (List.range g.n).filter (fun t => decide (t ∉ done)) with
  | [] => []
  | r :: _ => walkToCycle (chooseUndone g done) (g.n + 1) [] r

/-- Modelled from the spec: the Operation Graph Builder must detect and reject
cyclic graphs with a `CyclicDependencyError` naming one concrete cycle; on an
acyclic graph it produces a topological order of the operations. -/
def buildOperationGraph (g : TaskGraph) : Except (List Nat) (List Nat) :=
  let done := topoIter g (g.n + 1) []
  if done.length = g.n then Except.ok done else Except.error (extractCycle g done)

/-- Modelled from the spec: graph construction precedes execution; on a cyclic
graph the pipeline fails before any scheduler state exists, so zero tasks are
ever dispatched. -/
def buildGraphAndInit (g : TaskGraph) : Except (List Nat) ExecState :=
  match buildOperationGraph g with
  | Except.error c => Except.error c
  | Except.ok _ => Except.ok (initState g.n)

/-- `c` is a concrete dependency cycle: nonempty, consecutive elements follow
upstream edges, and the edge from the last element wraps around to the first. -/
def IsCycleList (g : TaskGraph) (c : List Nat) : Prop :=
  c ≠ []
    ∧ (∀ i, i + 1 < c.length → c.getD (i + 1) 0 ∈ g.upstreamOf (c.getD i 0))
    ∧ c.getD 0 0 ∈ g.upstreamOf (c.getD (c.length - 1) 0)

/-- The ordering produced by the builder respects dependency edges: every
upstream dependency of an ordered operation appears strictly earlier. -/
def TopoOrdered (g : TaskGraph) (done : List Nat) : Prop :=
  ∀ t ∈ done, ∀ u ∈ g.upstreamOf t, u ∈ done ∧ done.indexOf u < done.indexOf t

/-! ### PackageJsonEditor (embedded from source part_001) -/

inductive DependencyType where
  | regular
  | dev
  | optionalDep
  | peer
  | yarnResolutions
deriving DecidableEq, Repr

structure PackageJsonDependency where
  name : String
  version : String
  dependencyType : DependencyType
deriving DecidableEq, Repr

/-- Embedded from `PackageJsonDependency.setVersion` (part_001 lines 44-50)
together with `PackageJsonEditor._onChange` (lines 279-281).  The semver
validity predicates are parameters because the `semver` package is an external
npm library.  The result carries the thrown error or unit, the dependency
record, and the owning editor's `_modified` flag: the throw happens before the
assignment and the `_onChange()` call, so on the error path both pass through
untouched; on success the version is assigned and `_onChange` sets the flag. -/
def setVersion (semverValid semverValidRange : String → Bool)
    (d : PackageJsonDependency) (modified : Bool) (newVersion : String) :
    Except String Unit × PackageJsonDependency × Bool :=
  if !semverValid newVersion && !semverValidRange newVersion then
    (Except.error ("Cannot set version to invalid value: " ++ newVersion), d, modified)
  else
    (Except.ok (), { d with version := newVersion }, true)

/-! ### RushConfiguration project lookup (embedded from source part_002) -/

structure RushConfigurationProject where
  packageName : String
deriving DecidableEq, Repr

/-- Embedded from `RushConfiguration.getProjectByName`: a lookup in the
`projectsByName` map, which is keyed by `packageName` (uniqueness of names is
enforced when rush.json is loaded). -/
def getProjectByName (projects : List RushConfigurationProject) (name : String) :
    Option RushConfigurationProject :=
  projects.find? (fun p => p.packageName == name)

/-- Embedded from the approximate-match loop of
`RushConfiguration.findProjectByShorthandName`: scan the projects; on a second
unscoped-name match return undefined (ambiguous), otherwise remember the single
match. -/
def findApprox (getUnscopedName : String → String) (short : String) :
    List RushConfigurationProject → Option RushConfigurationProject →
      Option RushConfigurationProject
  | [], result => result
  | p :: rest, result =>
    if getUnscopedName p.packageName == short then
      match result with
      | some _ => none
      | none => findApprox getUnscopedName short rest (some p)
    else
      findApprox getUnscopedName short rest result

/-- Embedded from `RushConfiguration.findProjectByShorthandName` (part_002
lines 1655-1674).  `getUnscopedName` is a parameter standing for the
`PackageNameParser.getUnscopedName` of the node-core-library collaborator. -/
def findProjectByShorthandName (getUnscopedName : String → String)
    (projects : List RushConfigurationProject) (short : String) :
    Option RushConfigurationProject :=
  match getProjectByName projects short with
  | some result => some result
  | none => findApprox getUnscopedName short projects none

/-! ### Lemmas about blocked-status propagation -/

theorem blockRel_refl (a : TaskStatus) : BlockRel a a := Or.inl rfl

theorem blockRel_trans {a b c : TaskStatus} (h1 : BlockRel a b) (h2 : BlockRel b c) :
    BlockRel a c := by
  rcases h1 with h1 | ⟨ha, hb⟩
  · rw [h1] at h2; exact h2
  · rcases h2 with h2 | ⟨hb2, hc⟩
    · exact Or.inr ⟨ha, h2.symm ▸ hb⟩
    · exact Or.inr ⟨ha, hc⟩

theorem blockRel_isStarted {a b : TaskStatus} (h : BlockRel a b) :
    b.isStarted = a.isStarted := by
  rcases h with h | ⟨ha, hb⟩
  · rw [h]
  · rw [ha, hb]; rfl

theorem blockRel_of_failure {a b : TaskStatus} (h : BlockRel a b) (ha : a = .failure) :
    b = .failure := by
  rcases h with h | ⟨ha2, _⟩
  · rw [h, ha]
  · rw [ha2] at ha; cases ha

theorem blockRel_of_blocked {a b : TaskStatus} (h : BlockRel a b) (ha : a = .blocked) :
    b = .blocked := by
  rcases h with h | ⟨ha2, _⟩
  · rw [h, ha]
  · rw [ha2] at ha; cases ha

theorem blockRel_of_successFamily {a b : TaskStatus} (h : BlockRel a b)
    (ha : a.isSuccessFamily = true) : b = a := by
  rcases h with h | ⟨ha2, _⟩
  · exact h
  · rw [ha2] at ha; cases ha

theorem blockRel_blocked_src {a b : TaskStatus} (h : BlockRel a b) (hb : b = .blocked) :
    a = .blocked ∨ a = .ready := by
  rcases h with h | ⟨ha, _⟩
  · left; rw [← h, hb]
  · right; exact ha

theorem forall₂_blockRel_refl (l : List TaskStatus) : List.Forall₂ BlockRel l l := by
  induction l with
  | nil => exact List.Forall₂.nil
  | cons a rest ih => exact List.Forall₂.cons (blockRel_refl a) ih

theorem forall₂_blockRel_trans {l1 l2 l3 : List TaskStatus}
    (h1 : List.Forall₂ BlockRel l1 l2) (h2 : List.Forall₂ BlockRel l2 l3) :
    List.Forall₂ BlockRel l1 l3 := by
  induction h1 generalizing l3 with
  | nil => cases h2; exact List.Forall₂.nil
  | cons hab htail ih =>
    cases h2 with
    | cons hbc h2tail => exact List.Forall₂.cons (blockRel_trans hab hbc) (ih h2tail)

theorem forall₂_getD {R : TaskStatus → TaskStatus → Prop} :
    ∀ {l l' : List TaskStatus}, List.Forall₂ R l l' → ∀ i, i < l.length →
      R (l.getD i .ready) (l'.getD i .ready) := by
  intro l l' h
  induction h with
  | nil => intro i hi; cases hi
  | cons hab htail ih =>
    intro i hi
    cases i with
    | zero => simpa using hab
    | succ j =>
      simp only [List.getD_cons_succ]
      exact ih j (by simpa using hi)

theorem blockPassAux_rel (g : TaskGraph) (stFull : List TaskStatus) :
    ∀ (t : Nat) (l : List TaskStatus), List.Forall₂ BlockRel l (blockPassAux g stFull t l) := by
  intro t l
  induction l generalizing t with
  | nil => exact List.Forall₂.nil
  | cons s rest ih =>
    refine List.Forall₂.cons ?_ (ih (t + 1))
    by_cases h : s = TaskStatus.ready ∧ blockedUpstream g stFull t
    · simp only [if_pos h]; exact Or.inr ⟨h.1, rfl⟩
    · simp only [if_neg h]; exact blockRel_refl s

theorem blockPass_rel (g : TaskGraph) (st : List TaskStatus) :
    List.Forall₂ BlockRel st (blockPass g st) :=
  blockPassAux_rel g st 0 st

theorem countExecuting_cons (x : TaskStatus) (l : List TaskStatus) :
    countExecuting (x :: l) =
      (if x = TaskStatus.executing then 1 else 0) + countExecuting l := by
  simp only [countExecuting, List.filter_cons]
  by_cases hd : x = TaskStatus.executing
  · simp [hd]; omega
  · simp [hd]

theorem countReady_cons (x : TaskStatus) (l : List TaskStatus) :
    countReady (x :: l) =
      (if x = TaskStatus.ready then 1 else 0) + countReady l := by
  simp only [countReady, List.filter_cons]
  by_cases hd : x = TaskStatus.ready
  · simp [hd]; omega
  · simp [hd]

theorem countExecuting_of_rel {l l' : List TaskStatus}
    (h : List.Forall₂ BlockRel l l') : countExecuting l' = countExecuting l := by
  induction h with
  | nil => rfl
  | @cons a b l1 l2 hab htail ih =>
    rw [countExecuting_cons, countExecuting_cons, ih]
    rcases hab with hab | ⟨ha, hb⟩
    · rw [hab]
    · rw [ha, hb]; simp

theorem countReady_le_of_rel {l l' : List TaskStatus}
    (h : List.Forall₂ BlockRel l l') : countReady l' ≤ countReady l := by
  induction h with
  | nil => exact Nat.le_refl 0
  | @cons a b l1 l2 hab htail ih =>
    rw [countReady_cons, countReady_cons]
    rcases hab with hab | ⟨ha, hb⟩
    · rw [hab]; omega
    · rw [ha, hb]; simp; omega

theorem countReady_lt_of_rel_ne {l l' : List TaskStatus}
    (h : List.Forall₂ BlockRel l l') (hne : l' ≠ l) : countReady l' < countReady l := by
  induction h with
  | nil => cases hne rfl
  | @cons a b l1 l2 hab htail ih =>
    have hle : countReady l2 ≤ countReady l1 := countReady_le_of_rel htail
    rw [countReady_cons, countReady_cons]
    rcases hab with hab | ⟨ha, hb⟩
    · rw [hab] at hne ⊢
      have hne2 : l2 ≠ l1 := fun hc => hne (by rw [hc])
      have hlt := ih hne2
      omega
    · rw [ha, hb]; simp; omega

theorem blockPassAux_length (g : TaskGraph) (stFull : List TaskStatus) :
    ∀ (t : Nat) (l : List TaskStatus), (blockPassAux g stFull t l).length = l.length := by
  intro t l
  induction l generalizing t with
  | nil => rfl
  | cons s rest ih => simp [blockPassAux, ih]

theorem blockPass_length (g : TaskGraph) (st : List TaskStatus) :
    (blockPass g st).length = st.length :=
  blockPassAux_length g st 0 st

theorem blockPassAux_getD (g : TaskGraph) (stFull : List TaskStatus) :
    ∀ (l : List TaskStatus) (t i : Nat), i < l.length →
      (blockPassAux g stFull t l).getD i .ready =
        (if l.getD i .ready = .ready ∧ blockedUpstream g stFull (t + i) then .blocked
         else l.getD i .ready) := by
  intro l
  induction l with
  | nil => intro t i hi; cases hi
  | cons s rest ih =>
    intro t i hi
    cases i with
    | zero => simp [blockPassAux]
    | succ j =>
      simp only [blockPassAux, List.getD_cons_succ]
      have h := ih (t + 1) j (by simpa using hi)
      rw [h]
      have harith : t + 1 + j = t + (j + 1) := by omega
      rw [harith]

theorem blockPass_getD (g : TaskGraph) (st : List TaskStatus) (i : Nat)
    (hi : i < st.length) :
    (blockPass g st).getD i .ready =
      (if st.getD i .ready = .ready ∧ blockedUpstream g st i then .blocked
       else st.getD i .ready) := by
  have h := blockPassAux_getD g st st 0 i hi
  simpa using h

/-- At a fixpoint of the propagation pass, no `Ready` task has a failed or
blocked direct upstream. -/
theorem blockPass_fix_no_blockedUpstream (g : TaskGraph) (st : List TaskStatus)
    (hfix : blockPass g st = st) (i : Nat) (hi : i < st.length)
    (hready : st.getD i .ready = .ready) : ¬ blockedUpstream g st i := by
  intro hbu
  have h := blockPass_getD g st i hi
  rw [hfix, if_pos ⟨hready, hbu⟩] at h
  rw [h] at hready
  cases hready

theorem iterFix_isFix {α : Type} [DecidableEq α] (f : α → α) (μ : α → Nat)
    (hf : ∀ x, f x ≠ x → μ (f x) < μ x) :
    ∀ (fuel : Nat) (x : α), μ x ≤ fuel → f (iterFix f fuel x) = iterFix f fuel x := by
  intro fuel
  induction fuel with
  | zero =>
    intro x hx
    by_cases h : f x = x
    · simpa [iterFix] using h
    · have := hf x h; omega
  | succ n ih =>
    intro x hx
    by_cases h : f x = x
    · simp only [iterFix, if_pos h]; exact h
    · have hlt := hf x h
      simp only [iterFix, if_neg h]
      exact ih (f x) (by omega)

theorem iterFix_pres {α : Type} [DecidableEq α] (f : α → α) (P : α → Prop)
    (hP : ∀ x, P x → P (f x)) :
    ∀ (fuel : Nat) (x : α), P x → P (iterFix f fuel x) := by
  intro fuel
  induction fuel with
  | zero => intro x hx; exact hx
  | succ n ih =>
    intro x hx
    by_cases h : f x = x
    · simpa [iterFix, h] using hx
    · simp only [iterFix, if_neg h]
      exact ih (f x) (hP x hx)

theorem countReady_le_length (st : List TaskStatus) : countReady st ≤ st.length :=
  List.length_filter_le _ st

theorem blockPass_decrease (g : TaskGraph) :
    ∀ st : List TaskStatus, blockPass g st ≠ st → countReady (blockPass g st) < countReady st :=
  fun st hne => countReady_lt_of_rel_ne (blockPass_rel g st) hne

/-- The propagation in `blockFix` with fuel `length + 1` reaches a fixpoint. -/
theorem blockFix_isFix (g : TaskGraph) (st : List TaskStatus) :
    blockPass g (blockFix g (st.length + 1) st) = blockFix g (st.length + 1) st :=
  iterFix_isFix (blockPass g) countReady (blockPass_decrease g) (st.length + 1) st
    (Nat.le_succ_of_le (countReady_le_length st))

theorem blockFix_rel (g : TaskGraph) (fuel : Nat) (st : List TaskStatus) :
    List.Forall₂ BlockRel st (blockFix g fuel st) := by
  induction fuel generalizing st with
  | zero => exact forall₂_blockRel_refl st
  | succ n ih =>
    by_cases h : blockPass g st = st
    · simpa [blockFix, iterFix, h] using forall₂_blockRel_refl st
    · simp only [blockFix, iterFix, if_neg h]
      exact forall₂_blockRel_trans (blockPass_rel g st) (ih (blockPass g st))

theorem blockFix_length (g : TaskGraph) (fuel : Nat) (st : List TaskStatus) :
    (blockFix g fuel st).length = st.length :=
  (blockFix_rel g fuel st).length_eq.symm

/-- A task newly blocked by `blockFix` has a direct upstream dependency whose
status in the result is `Failure` or `Blocked`. -/
theorem blockFix_blocked_upstream (g : TaskGraph) :
    ∀ (fuel : Nat) (st : List TaskStatus) (t : Nat), t < st.length →
      st.getD t .ready = .ready →
      (blockFix g fuel st).getD t .ready = .blocked →
      ∃ u ∈ g.upstreamOf t,
        (blockFix g fuel st).getD u .ready = .failure ∨
        (blockFix g fuel st).getD u .ready = .blocked := by
  intro fuel
  induction fuel with
  | zero =>
    intro st t ht hready hblocked
    simp only [blockFix, iterFix] at hblocked
    rw [hready] at hblocked
    cases hblocked
  | succ n ih =>
    intro st t ht hready hblocked
    by_cases h : blockPass g st = st
    · simp only [blockFix, iterFix, if_pos h] at hblocked
      rw [hready] at hblocked
      cases hblocked
    · have hres : blockFix g (n + 1) st = blockFix g n (blockPass g st) := by
        simp [blockFix, iterFix, if_neg h]
      rw [hres] at hblocked ⊢
      have hchar := blockPass_getD g st t ht
      by_cases hbu : blockedUpstream g st t
      · -- t is blocked in this very pass: take the failed/blocked upstream of t
        obtain ⟨u, hu, hst⟩ := hbu
        refine ⟨u, hu, ?_⟩
        have hult : u < st.length := by
          by_contra hge
          have : st.getD u .ready = .ready := List.getD_eq_default _ _ (by omega)
          rcases hst with hst | hst <;> rw [this] at hst <;> cases hst
        have hrel1 : BlockRel (st.getD u .ready) ((blockPass g st).getD u .ready) :=
          forall₂_getD (blockPass_rel g st) u hult
        have hrel2 : BlockRel ((blockPass g st).getD u .ready)
            ((blockFix g n (blockPass g st)).getD u .ready) :=
          forall₂_getD (blockFix_rel g n (blockPass g st)) u
            (by rw [blockPass_length]; exact hult)
        have hrel := blockRel_trans hrel1 hrel2
        rcases hst with hst | hst
        · exact Or.inl (blockRel_of_failure hrel hst)
        · exact Or.inr (blockRel_of_blocked hrel hst)
      · -- t stays ready in this pass; recurse
        have hstill : (blockPass g st).getD t .ready = .ready := by
          rw [hchar, if_neg (fun hc => hbu hc.2), hready]
        exact ih (blockPass g st) t (by rw [blockPass_length]; exact ht) hstill hblocked

/-! ### List helper lemmas -/

theorem getD_set_self {α : Type} (l : List α) (i : Nat) (a d : α) (h : i < l.length) :
    (l.set i a).getD i d = a := by
  induction l generalizing i with
  | nil => cases h
  | cons x xs ih =>
    cases i with
    | zero => rfl
    | succ j => exact ih j (by simpa using h)

theorem getD_set_ne {α : Type} (l : List α) (i j : Nat) (a d : α) (h : i ≠ j) :
    (l.set i a).getD j d = l.getD j d := by
  induction l generalizing i j with
  | nil => rfl
  | cons x xs ih =>
    cases i with
    | zero =>
      cases j with
      | zero => cases h rfl
      | succ k => rfl
    | succ i2 =>
      cases j with
      | zero => rfl
      | succ k => exact ih i2 k (fun hc => h (by rw [hc]))

theorem getD_replicate {α : Type} (n i : Nat) (a d : α) (h : i < n) :
    (List.replicate n a).getD i d = a := by
  induction n generalizing i with
  | zero => cases h
  | succ m ih =>
    cases i with
    | zero => rfl
    | succ j => exact ih j (by omega)

theorem countExecuting_replicate_ready (n : Nat) :
    countExecuting (List.replicate n .ready) = 0 := by
  induction n with
  | zero => rfl
  | succ m ih => rw [List.replicate_succ, countExecuting_cons]; simp [ih]

theorem countExecuting_set_succ (l : List TaskStatus) (t : Nat) (h : t < l.length)
    (hne : l.getD t .ready ≠ .executing) :
    countExecuting (l.set t .executing) = countExecuting l + 1 := by
  induction l generalizing t with
  | nil => cases h
  | cons x xs ih =>
    cases t with
    | zero =>
      have hx : x ≠ TaskStatus.executing := by simpa using hne
      rw [show (x :: xs).set 0 .executing = .executing :: xs from rfl,
        countExecuting_cons, countExecuting_cons]
      simp [hx]
      omega
    | succ j =>
      have hj : j < xs.length := by simpa using h
      have hne2 : xs.getD j .ready ≠ .executing := by simpa using hne
      rw [show (x :: xs).set (j + 1) .executing = x :: xs.set j .executing from rfl,
        countExecuting_cons, countExecuting_cons, ih j hj hne2]
      omega

theorem countExecuting_set_pred (l : List TaskStatus) (t : Nat) (x : TaskStatus)
    (h : t < l.length) (hexec : l.getD t .ready = .executing)
    (hx : x ≠ .executing) :
    countExecuting (l.set t x) + 1 = countExecuting l := by
  induction l generalizing t with
  | nil => cases h
  | cons y ys ih =>
    cases t with
    | zero =>
      have hy : y = TaskStatus.executing := by simpa using hexec
      rw [show (y :: ys).set 0 x = x :: ys from rfl,
        countExecuting_cons, countExecuting_cons]
      simp [hx, hy]
      omega
    | succ j =>
      have hj : j < ys.length := by simpa using h
      have hexec2 : ys.getD j .ready = .executing := by simpa using hexec
      rw [show (y :: ys).set (j + 1) x = y :: ys.set j x from rfl,
        countExecuting_cons, countExecuting_cons]
      have := ih j hj hexec2
      omega

/-! ### Provenance of blocked statuses -/

theorem mem_lt_of_getD_failure {st : List TaskStatus} {u : Nat}
    (h : st.getD u .ready = .failure ∨ st.getD u .ready = .blocked) : u < st.length := by
  by_contra hge
  have hd : st.getD u .ready = .ready := List.getD_eq_default _ _ (by omega)
  rcases h with h | h <;> rw [hd] at h <;> cases h

theorem blockPass_pres_Bprop (g : TaskGraph) (st : List TaskStatus)
    (h : Bprop g st) : Bprop g (blockPass g st) := by
  intro t ht hblocked
  rw [blockPass_length] at ht
  have hchar := blockPass_getD g st t ht
  by_cases hc : st.getD t .ready = .ready ∧ blockedUpstream g st t
  · -- newly blocked in this pass
    obtain ⟨hready, u, hu, hst⟩ := hc
    have hul : u < st.length := mem_lt_of_getD_failure hst
    rcases hst with hst | hst
    · refine ⟨u, by rw [blockPass_length]; exact hul, ?_, Relation.TransGen.single hu⟩
      rw [blockPass_getD g st u hul, if_neg (by rw [hst]; intro hcc; cases hcc.1), hst]
    · obtain ⟨f, hf, hff, hdep⟩ := h u hul hst
      refine ⟨f, by rw [blockPass_length]; exact hf, ?_, Relation.TransGen.head hu hdep⟩
      rw [blockPass_getD g st f hf, if_neg (by rw [hff]; intro hcc; cases hcc.1), hff]
  · -- status unchanged: it was already blocked
    rw [hchar, if_neg hc] at hblocked
    obtain ⟨f, hf, hff, hdep⟩ := h t ht hblocked
    refine ⟨f, by rw [blockPass_length]; exact hf, ?_, hdep⟩
    rw [blockPass_getD g st f hf, if_neg (by rw [hff]; intro hcc; cases hcc.1), hff]

theorem blockFix_pres_Bprop (g : TaskGraph) (fuel : Nat) (st : List TaskStatus)
    (h : Bprop g st) : Bprop g (blockFix g fuel st) :=
  iterFix_pres (blockPass g) (Bprop g) (blockPass_pres_Bprop g) fuel st h

/-! ### The master invariant of reachable scheduler states -/

theorem blockRel_of_started {a b : TaskStatus} (h : BlockRel a b)
    (hb : b.isStarted = true) : b = a := by
  rcases h with h | ⟨_, hb2⟩
  · exact h
  · rw [hb2] at hb; cases hb

theorem inv_init (cfg : RunConfig) : Inv cfg (initState cfg.g.n) := by
  have hstat : (initState cfg.g.n).status = List.replicate cfg.g.n TaskStatus.ready := rfl
  have hinvk : (initState cfg.g.n).invoked = [] := rfl
  constructor
  · rw [hstat]; exact List.length_replicate _ _
  · intro t ht hstarted
    rw [hstat] at ht hstarted
    rw [getD_replicate _ t _ _ (by simpa using ht)] at hstarted
    cases hstarted
  · rintro t ht hready ⟨u, hu, hst⟩
    rw [hstat] at hst
    have hul : u < (List.replicate cfg.g.n TaskStatus.ready).length :=
      mem_lt_of_getD_failure hst
    rw [getD_replicate _ u _ _ (by simpa using hul)] at hst
    rcases hst with hst | hst <;> cases hst
  · intro t ht hblocked
    rw [hstat] at ht hblocked
    rw [getD_replicate _ t _ _ (by simpa using ht)] at hblocked
    cases hblocked
  · intro t
    rw [hstat, hinvk]
    constructor
    · intro h; cases h
    · rintro ⟨ht, hstarted⟩
      rw [getD_replicate _ t _ _ (by simpa using ht)] at hstarted
      cases hstarted
  · rw [hstat, countExecuting_replicate_ready]
    exact Nat.zero_le _

theorem builderResult_toStatus_failure (r : BuilderResult) :
    r.toStatus = .failure ↔ r = .failure := by
  cases r <;> decide

theorem lt_of_successFamily {st : List TaskStatus} {u : Nat}
    (h : (st.getD u .ready).isSuccessFamily = true) : u < st.length := by
  by_contra hge
  rw [List.getD_eq_default _ _ (by omega)] at h
  cases h

theorem inv_step (cfg : RunConfig) (s s' : ExecState) (hinv : Inv cfg s)
    (hstep : Step cfg s s') : Inv cfg s' := by
  cases hstep with
  | dispatch t ht hready hup hcount =>
    have hune : ∀ u ∈ cfg.g.upstreamOf t, u ≠ t := by
      intro u hu hc
      have h2 := hup u hu
      rw [hc, hready] at h2
      cases h2
    constructor
    · rw [List.length_set]; exact hinv.len_eq
    · intro t' ht' hstarted u hu
      rw [List.length_set] at ht'
      by_cases hct : t' = t
      · subst hct
        rw [getD_set_ne _ _ _ _ _ (Ne.symm (hune u hu))]
        exact hup u hu
      · rw [getD_set_ne _ _ _ _ _ (Ne.symm hct)] at hstarted
        have hold := hinv.upstream_success t' ht' hstarted u hu
        have hut : u ≠ t := by
          intro hc
          rw [hc, hready] at hold
          cases hold
        rw [getD_set_ne _ _ _ _ _ (Ne.symm hut)]
        exact hold
    · rintro t' ht' hready' ⟨u, hu, hst⟩
      rw [List.length_set] at ht'
      have hct : t' ≠ t := by
        intro hc
        rw [hc, getD_set_self _ _ _ _ ht] at hready'
        cases hready'
      rw [getD_set_ne _ _ _ _ _ (Ne.symm hct)] at hready'
      have hut : u ≠ t := by
        intro hc
        rw [hc, getD_set_self _ _ _ _ ht] at hst
        rcases hst with hst | hst <;> cases hst
      rw [getD_set_ne _ _ _ _ _ (Ne.symm hut)] at hst
      exact hinv.ready_no_bu t' ht' hready' ⟨u, hu, hst⟩
    · intro t' ht' hblocked
      rw [List.length_set] at ht'
      have hct : t' ≠ t := by
        intro hc
        rw [hc, getD_set_self _ _ _ _ ht] at hblocked
        cases hblocked
      rw [getD_set_ne _ _ _ _ _ (Ne.symm hct)] at hblocked
      obtain ⟨f, hf, hff, hdep⟩ := hinv.blocked_anc t' ht' hblocked
      have hft : f ≠ t := by
        intro hc
        rw [hc, hready] at hff
        cases hff
      refine ⟨f, ?_, ?_, hdep⟩
      · rw [List.length_set]; exact hf
      · rw [getD_set_ne _ _ _ _ _ (Ne.symm hft)]; exact hff
    · intro x
      rw [show (⟨s.status.set t .executing, s.invoked ++ [t]⟩ : ExecState).invoked
            = s.invoked ++ [t] from rfl]
      rw [show (⟨s.status.set t .executing, s.invoked ++ [t]⟩ : ExecState).status
            = s.status.set t .executing from rfl]
      rw [List.length_set]
      constructor
      · intro hx
        rcases List.mem_append.mp hx with hx | hx
        · obtain ⟨hxl, hxs⟩ := (hinv.invoked_iff x).mp hx
          have hxt : x ≠ t := by
            intro hc
            rw [hc, hready] at hxs
            cases hxs
          rw [getD_set_ne _ _ _ _ _ (Ne.symm hxt)]
          exact ⟨hxl, hxs⟩
        · have hxt : x = t := by simpa using hx
          subst hxt
          rw [getD_set_self _ _ _ _ ht]
          exact ⟨ht, rfl⟩
      · rintro ⟨hxl, hxs⟩
        by_cases hxt : x = t
        · subst hxt
          exact List.mem_append.mpr (Or.inr (by simp))
        · rw [getD_set_ne _ _ _ _ _ (Ne.symm hxt)] at hxs
          exact List.mem_append.mpr (Or.inl ((hinv.invoked_iff x).mpr ⟨hxl, hxs⟩))
    · have hstep1 : countExecuting (s.status.set t .executing)
          = countExecuting s.status + 1 :=
        countExecuting_set_succ s.status t ht (by rw [hready]; intro hc; cases hc)
      rw [show (⟨s.status.set t .executing, s.invoked ++ [t]⟩ : ExecState).status
            = s.status.set t .executing from rfl, hstep1]
      omega
  | complete t ht hexec =>
    have hupold : ∀ u ∈ cfg.g.upstreamOf t,
        (s.status.getD u .ready).isSuccessFamily = true :=
      hinv.upstream_success t ht (by rw [hexec]; rfl)
    have hune : ∀ u ∈ cfg.g.upstreamOf t, u ≠ t := by
      intro u hu hc
      have h2 := hupold u hu
      rw [hc, hexec] at h2
      cases h2
    set r : BuilderResult := cfg.outcome.getD t .success with hr
    have hrne : r.toStatus ≠ .executing := by
      cases r <;> (intro hc; cases hc)
    have hrstarted : r.toStatus.isStarted = true := by cases r <;> rfl
    have hrnotready : r.toStatus ≠ .ready := by
      cases r <;> (intro hc; cases hc)
    have hrnotblocked : r.toStatus ≠ .blocked := by
      cases r <;> (intro hc; cases hc)
    have hres : resolveTask cfg s.status t
        = if r = BuilderResult.failure
          then blockFix cfg.g ((s.status.set t r.toStatus).length + 1)
            (s.status.set t r.toStatus)
          else s.status.set t r.toStatus := rfl
    by_cases hfail : r = BuilderResult.failure
    · -- the builder failed: downstream tasks get blocked
      have hts : r.toStatus = .failure := by rw [hfail]; rfl
      set st1 : List TaskStatus := s.status.set t r.toStatus with hst1
      set stF : List TaskStatus := blockFix cfg.g (st1.length + 1) st1 with hstF
      have hresF : resolveTask cfg s.status t = stF := by rw [hres, if_pos hfail]
      have hlen1 : st1.length = s.status.length := List.length_set _ _ _
      have hrelF : List.Forall₂ BlockRel st1 stF := blockFix_rel cfg.g _ st1
      have hlenF : stF.length = st1.length := blockFix_length cfg.g _ st1
      have hfixF : blockPass cfg.g stF = stF := blockFix_isFix cfg.g st1
      have hrelPt : ∀ i, i < st1.length →
          BlockRel (st1.getD i .ready) (stF.getD i .ready) := forall₂_getD hrelF
      have hgt : st1.getD t .ready = .failure := by
        rw [hst1, getD_set_self _ _ _ _ ht, hts]
      have hgtF : stF.getD t .ready = .failure :=
        blockRel_of_failure (hrelPt t (by rw [hlen1]; exact ht)) hgt
      have hBprop1 : Bprop cfg.g st1 := by
        intro t' ht1' hbl
        have hct : t' ≠ t := by
          intro hc
          rw [hc, hgt] at hbl
          cases hbl
        rw [hst1, getD_set_ne _ _ _ _ _ (Ne.symm hct)] at hbl
        obtain ⟨f, hf, hff, hdep⟩ := hinv.blocked_anc t' (by rw [hlen1] at ht1'; exact ht1') hbl
        have hft : f ≠ t := by
          intro hc
          rw [hc, hexec] at hff
          cases hff
        refine ⟨f, by rw [hlen1]; exact hf, ?_, hdep⟩
        rw [hst1, getD_set_ne _ _ _ _ _ (Ne.symm hft)]
        exact hff
      constructor
      · rw [show (⟨resolveTask cfg s.status t, s.invoked⟩ : ExecState).status
              = resolveTask cfg s.status t from rfl, hresF, hlenF, hlen1]
        exact hinv.len_eq
      · intro t' ht' hstarted u hu
        rw [show (⟨resolveTask cfg s.status t, s.invoked⟩ : ExecState).status
              = resolveTask cfg s.status t from rfl, hresF] at ht' hstarted ⊢
        rw [hlenF] at ht'
        have heq : stF.getD t' .ready = st1.getD t' .ready :=
          blockRel_of_started (hrelPt t' ht') hstarted
        rw [heq] at hstarted
        by_cases hct : t' = t
        · subst hct
          have hsu := hupold u hu
          have hul : u < s.status.length := lt_of_successFamily hsu
          have hs1u : st1.getD u .ready = s.status.getD u .ready := by
            rw [hst1, getD_set_ne _ _ _ _ _ (Ne.symm (hune u hu))]
          have heqF : stF.getD u .ready = st1.getD u .ready :=
            blockRel_of_successFamily (hrelPt u (by rw [hlen1]; exact hul))
              (by rw [hs1u]; exact hsu)
          rw [heqF, hs1u]
          exact hsu
        · rw [hst1, getD_set_ne _ _ _ _ _ (Ne.symm hct)] at hstarted
          have hsu := hinv.upstream_success t' (by rw [hlen1] at ht'; exact ht') hstarted u hu
          have hut : u ≠ t := by
            intro hc
            rw [hc, hexec] at hsu
            cases hsu
          have hul : u < s.status.length := lt_of_successFamily hsu
          have hs1u : st1.getD u .ready = s.status.getD u .ready := by
            rw [hst1, getD_set_ne _ _ _ _ _ (Ne.symm hut)]
          have heqF : stF.getD u .ready = st1.getD u .ready :=
            blockRel_of_successFamily (hrelPt u (by rw [hlen1]; exact hul))
              (by rw [hs1u]; exact hsu)
          rw [heqF, hs1u]
          exact hsu
      · intro t' ht' hready'
        rw [show (⟨resolveTask cfg s.status t, s.invoked⟩ : ExecState).status
              = resolveTask cfg s.status t from rfl, hresF] at ht' hready' ⊢
        exact blockPass_fix_no_blockedUpstream cfg.g stF hfixF t' ht' hready'
      · rw [show (⟨resolveTask cfg s.status t, s.invoked⟩ : ExecState).status
              = resolveTask cfg s.status t from rfl, hresF]
        exact blockFix_pres_Bprop cfg.g _ st1 hBprop1
      · intro x
        rw [show (⟨resolveTask cfg s.status t, s.invoked⟩ : ExecState).status
              = resolveTask cfg s.status t from rfl,
          show (⟨resolveTask cfg s.status t, s.invoked⟩ : ExecState).invoked
              = s.invoked from rfl, hresF, hlenF, hlen1]
        have hstartEq : ∀ y, y < s.status.length →
            (stF.getD y .ready).isStarted = (s.status.getD y .ready).isStarted := by
          intro y hy
          have h1 : (stF.getD y .ready).isStarted = (st1.getD y .ready).isStarted :=
            blockRel_isStarted (hrelPt y (by rw [hlen1]; exact hy))
          by_cases hyt : y = t
          · subst hyt
            rw [h1, hgt, hexec]
            rfl
          · rw [h1, hst1, getD_set_ne _ _ _ _ _ (Ne.symm hyt)]
        constructor
        · intro hx
          obtain ⟨hxl, hxs⟩ := (hinv.invoked_iff x).mp hx
          exact ⟨hxl, by rw [hstartEq x hxl]; exact hxs⟩
        · rintro ⟨hxl, hxs⟩
          rw [hstartEq x hxl] at hxs
          exact (hinv.invoked_iff x).mpr ⟨hxl, hxs⟩
      · rw [show (⟨resolveTask cfg s.status t, s.invoked⟩ : ExecState).status
              = resolveTask cfg s.status t from rfl, hresF]
        have h1 : countExecuting stF = countExecuting st1 := countExecuting_of_rel hrelF
        have h2 : countExecuting st1 + 1 = countExecuting s.status :=
          countExecuting_set_pred s.status t r.toStatus ht hexec hrne
        have h3 := hinv.exec_le
        omega
    · -- the builder resolved without failure: only this task's status changes
      have hresN : resolveTask cfg s.status t = s.status.set t r.toStatus := by
        rw [hres, if_neg hfail]
      have hrnotfail : r.toStatus ≠ .failure := fun hc =>
        hfail ((builderResult_toStatus_failure r).mp hc)
      constructor
      · rw [show (⟨resolveTask cfg s.status t, s.invoked⟩ : ExecState).status
              = resolveTask cfg s.status t from rfl, hresN, List.length_set]
        exact hinv.len_eq
      · intro t' ht' hstarted u hu
        rw [show (⟨resolveTask cfg s.status t, s.invoked⟩ : ExecState).status
              = resolveTask cfg s.status t from rfl, hresN] at ht' hstarted ⊢
        rw [List.length_set] at ht'
        by_cases hct : t' = t
        · subst hct
          rw [getD_set_ne _ _ _ _ _ (Ne.symm (hune u hu))]
          exact hupold u hu
        · rw [getD_set_ne _ _ _ _ _ (Ne.symm hct)] at hstarted
          have hold := hinv.upstream_success t' ht' hstarted u hu
          have hut : u ≠ t := by
            intro hc
            rw [hc, hexec] at hold
            cases hold
          rw [getD_set_ne _ _ _ _ _ (Ne.symm hut)]
          exact hold
      · intro t' ht' hready' hbu
        rw [show (⟨resolveTask cfg s.status t, s.invoked⟩ : ExecState).status
              = resolveTask cfg s.status t from rfl, hresN] at ht' hready' hbu
        rw [List.length_set] at ht'
        have hct : t' ≠ t := by
          intro hc
          rw [hc, getD_set_self _ _ _ _ ht] at hready'
          exact hrnotready hready'
        rw [getD_set_ne _ _ _ _ _ (Ne.symm hct)] at hready'
        obtain ⟨u, hu, hst⟩ := hbu
        have hut : u ≠ t := by
          intro hc
          rw [hc, getD_set_self _ _ _ _ ht] at hst
          rcases hst with hst | hst
          · exact hrnotfail hst
          · exact hrnotblocked hst
        rw [getD_set_ne _ _ _ _ _ (Ne.symm hut)] at hst
        exact hinv.ready_no_bu t' ht' hready' ⟨u, hu, hst⟩
      · intro t' ht' hblocked
        rw [show (⟨resolveTask cfg s.status t, s.invoked⟩ : ExecState).status
              = resolveTask cfg s.status t from rfl, hresN] at ht' hblocked ⊢
        rw [List.length_set] at ht'
        have hct : t' ≠ t := by
          intro hc
          rw [hc, getD_set_self _ _ _ _ ht] at hblocked
          exact hrnotblocked hblocked
        rw [getD_set_ne _ _ _ _ _ (Ne.symm hct)] at hblocked
        obtain ⟨f, hf, hff, hdep⟩ := hinv.blocked_anc t' ht' hblocked
        have hft : f ≠ t := by
          intro hc
          rw [hc, hexec] at hff
          cases hff
        refine ⟨f, ?_, ?_, hdep⟩
        · rw [List.length_set]; exact hf
        · rw [getD_set_ne _ _ _ _ _ (Ne.symm hft)]; exact hff
      · intro x
        rw [show (⟨resolveTask cfg s.status t, s.invoked⟩ : ExecState).status
              = resolveTask cfg s.status t from rfl,
          show (⟨resolveTask cfg s.status t, s.invoked⟩ : ExecState).invoked
              = s.invoked from rfl, hresN, List.length_set]
        by_cases hxt : x = t
        · subst hxt
          constructor
          · intro _
            rw [getD_set_self _ _ _ _ ht]
            exact ⟨ht, hrstarted⟩
          · intro _
            exact (hinv.invoked_iff x).mpr ⟨ht, by rw [hexec]; rfl⟩
        · rw [getD_set_ne _ _ _ _ _ (Ne.symm hxt)]
          exact hinv.invoked_iff x
      · rw [show (⟨resolveTask cfg s.status t, s.invoked⟩ : ExecState).status
              = resolveTask cfg s.status t from rfl, hresN]
        have h2 : countExecuting (s.status.set t r.toStatus) + 1
            = countExecuting s.status :=
          countExecuting_set_pred s.status t r.toStatus ht hexec hrne
        have h3 := hinv.exec_le
        omega

/-- Every reachable state satisfies the master invariant. -/
theorem inv_reachable (cfg : RunConfig) (s : ExecState) (h : Reachable cfg s) :
    Inv cfg s := by
  induction h with
  | refl => exact inv_init cfg
  | tail hsteps hstep ih => exact inv_step cfg _ _ ih hstep

/-! ### Claim C1: failure blocks exactly the transitive downstream tasks -/

theorem upstream_edge_lt_n {g : TaskGraph} {a u : Nat} (hu : u ∈ g.upstreamOf a) :
    a < g.n := by
  by_contra hge
  rw [TaskGraph.upstreamOf, List.getD_eq_default _ _ (by
    rw [show g.upstream.length = g.n from rfl]; omega)] at hu
  cases hu

theorem taskStatus_cases (x : TaskStatus) :
    x = .ready ∨ x = .blocked ∨ x.isStarted = true := by
  cases x <;> first
    | exact Or.inl rfl
    | exact Or.inr (Or.inl rfl)
    | exact Or.inr (Or.inr rfl)

theorem blocked_of_failure_dep (cfg : RunConfig) (s : ExecState) (hinv : Inv cfg s)
    {f t : Nat} (hf : s.status.getD f .ready = .failure) (hdep : DependsOn cfg.g t f) :
    s.status.getD t .ready = .blocked := by
  have key : ∀ a m : Nat, m ∈ cfg.g.upstreamOf a →
      (s.status.getD m .ready = .failure ∨ s.status.getD m .ready = .blocked) →
      s.status.getD a .ready = .blocked := by
    intro a m hm hstat
    have haL : a < s.status.length := by
      rw [hinv.len_eq]; exact upstream_edge_lt_n hm
    rcases taskStatus_cases (s.status.getD a .ready) with hc | hc | hc
    · exact absurd ⟨m, hm, hstat⟩ (hinv.ready_no_bu a haL hc)
    · exact hc
    · have hsf := hinv.upstream_success a haL hc m hm
      rcases hstat with hstat | hstat <;> rw [hstat] at hsf <;> cases hsf
  unfold DependsOn at hdep
  induction hdep using Relation.TransGen.head_induction_on with
  | base hedge => exact key _ f hedge (Or.inl hf)
  | ih hedge _ hblocked => exact key _ _ hedge (Or.inr hblocked)

/-- C1: for every run in which some task `f` resolves to `Failure`, every task
transitively downstream of `f` has status `Blocked` and its Builder is never
invoked; conversely every `Blocked` task is transitively downstream of some
failed task, so tasks not downstream of any failure are never blocked by it. -/
theorem failure_blocks_transitive_downstream (cfg : RunConfig) (s : ExecState)
    (hs : Reachable cfg s) (f t : Nat) :
    (s.status.getD f .ready = .failure → DependsOn cfg.g t f →
      s.status.getD t .ready = .blocked ∧ t ∉ s.invoked)
    ∧ (s.status.getD t .ready = .blocked → t < s.status.length →
      ∃ f2, f2 < s.status.length ∧ s.status.getD f2 .ready = .failure
        ∧ DependsOn cfg.g t f2) := by
  have hinv := inv_reachable cfg s hs
  constructor
  · intro hf hdep
    have hblocked : s.status.getD t .ready = .blocked :=
      blocked_of_failure_dep cfg s hinv hf hdep
    refine ⟨hblocked, ?_⟩
    intro hmem
    have h2 := (hinv.invoked_iff t).mp hmem
    rw [hblocked] at h2
    cases h2.2
  · intro hb htl
    exact hinv.blocked_anc t htl hb

/-- Witness for C1: the two-task graph where task 1 depends on task 0 and
task 0's builder fails; after the run task 1 is blocked and was never invoked. -/
theorem failure_blocks_transitive_downstream_witness :
    (⟨[.failure, .blocked], [0]⟩ : ExecState).status.getD 1 .ready = .blocked
      ∧ 1 ∉ (⟨[.failure, .blocked], [0]⟩ : ExecState).invoked := by
  have h1 : Step ⟨⟨[[], [0]]⟩, [.failure, .success], 1⟩
      (initState (TaskGraph.n ⟨[[], [0]]⟩))
      (⟨[.executing, .ready], [0]⟩ : ExecState) :=
    Step.dispatch _ 0 (by decide) (by decide) (by decide) (by decide)
  have h2 : Step ⟨⟨[[], [0]]⟩, [.failure, .success], 1⟩
      (⟨[.executing, .ready], [0]⟩ : ExecState)
      (⟨[.failure, .blocked], [0]⟩ : ExecState) :=
    Step.complete _ 0 (by decide) (by decide)
  have hreach : Reachable ⟨⟨[[], [0]]⟩, [.failure, .success], 1⟩
      (⟨[.failure, .blocked], [0]⟩ : ExecState) :=
    Relation.ReflTransGen.tail (Relation.ReflTransGen.tail Relation.ReflTransGen.refl h1) h2
  exact (failure_blocks_transitive_downstream _ _ hreach 0 1).1 (by decide)
    (Relation.TransGen.single (by decide))

/-! ### Claim C4: the status state machine -/

theorem builderResult_isResolved (r : BuilderResult) : r.toStatus.isResolved = true := by
  cases r <;> rfl

theorem builderResult_ne_blocked (r : BuilderResult) : r.toStatus ≠ .blocked := by
  cases r <;> (intro hc; cases hc)

/-- C4: along every scheduler step, each task's status either stays unchanged
or makes one of the allowed transitions — `Ready → Executing` with all direct
upstream dependencies in the success family, `Executing →` a builder
resolution (never `Blocked`), or `Ready → Blocked` with some transitive
upstream dependency resolved to `Failure` or `Blocked`; and a resolved
(terminal) status never changes. -/
theorem task_status_transitions (cfg : RunConfig) (s s' : ExecState)
    (hstep : Step cfg s s') (t : Nat) (htl : t < s.status.length) :
    ((s.status.getD t .ready).isResolved = true →
      s'.status.getD t .ready = s.status.getD t .ready)
    ∧ (s'.status.getD t .ready = s.status.getD t .ready
      ∨ (s.status.getD t .ready = .ready ∧ s'.status.getD t .ready = .executing
          ∧ ∀ u ∈ cfg.g.upstreamOf t, (s.status.getD u .ready).isSuccessFamily = true)
      ∨ (s.status.getD t .ready = .executing
          ∧ (s'.status.getD t .ready).isResolved = true
          ∧ s'.status.getD t .ready ≠ .blocked)
      ∨ (s.status.getD t .ready = .ready ∧ s'.status.getD t .ready = .blocked
          ∧ ∃ u, DependsOn cfg.g t u
              ∧ (s'.status.getD u .ready = .failure
                  ∨ s'.status.getD u .ready = .blocked))) := by
  cases hstep with
  | dispatch d hd hready hup hcount =>
    by_cases hct : t = d
    · subst hct
      have hnew : (⟨s.status.set t .executing, s.invoked ++ [t]⟩ : ExecState).status.getD
          t .ready = .executing := getD_set_self _ _ _ _ hd
      constructor
      · intro hres
        rw [hready] at hres
        exact absurd hres (by decide)
      · exact Or.inr (Or.inl ⟨hready, hnew, hup⟩)
    · have hnew : (⟨s.status.set d .executing, s.invoked ++ [d]⟩ : ExecState).status.getD
          t .ready = s.status.getD t .ready := getD_set_ne _ _ _ _ _ (Ne.symm hct)
      exact ⟨fun _ => hnew, Or.inl hnew⟩
  | complete c hc hcexec =>
    set r : BuilderResult := cfg.outcome.getD c .success with hr
    have hres : resolveTask cfg s.status c
        = if r = BuilderResult.failure
          then blockFix cfg.g ((s.status.set c r.toStatus).length + 1)
            (s.status.set c r.toStatus)
          else s.status.set c r.toStatus := rfl
    by_cases hfail : r = BuilderResult.failure
    · have hts : r.toStatus = .failure := by rw [hfail]; rfl
      set st1 : List TaskStatus := s.status.set c r.toStatus with hst1
      set stF : List TaskStatus := blockFix cfg.g (st1.length + 1) st1 with hstF
      have hresF : resolveTask cfg s.status c = stF := by rw [hres, if_pos hfail]
      have hlen1 : st1.length = s.status.length := List.length_set _ _ _
      have hrelF : List.Forall₂ BlockRel st1 stF := blockFix_rel cfg.g _ st1
      have hrelPt : ∀ i, i < st1.length →
          BlockRel (st1.getD i .ready) (stF.getD i .ready) := forall₂_getD hrelF
      have hsimp : (⟨resolveTask cfg s.status c, s.invoked⟩ : ExecState).status = stF := by
        rw [show (⟨resolveTask cfg s.status c, s.invoked⟩ : ExecState).status
              = resolveTask cfg s.status c from rfl, hresF]
      by_cases hct : t = c
      · subst hct
        have hgt : st1.getD t .ready = .failure := by
          rw [hst1, getD_set_self _ _ _ _ hc, hts]
        have hgtF : stF.getD t .ready = .failure :=
          blockRel_of_failure (hrelPt t (by rw [hlen1]; exact hc)) hgt
        constructor
        · intro hres2
          rw [hcexec] at hres2
          exact absurd hres2 (by decide)
        · refine Or.inr (Or.inr (Or.inl ⟨hcexec, ?_, ?_⟩))
          · rw [hsimp, hgtF]; rfl
          · rw [hsimp, hgtF]; intro hcc; cases hcc
      · have hg1 : st1.getD t .ready = s.status.getD t .ready := by
          rw [hst1, getD_set_ne _ _ _ _ _ (Ne.symm hct)]
        rcases hrelPt t (by rw [hlen1]; exact htl) with heq | ⟨hrdy, hblk⟩
        · rw [hg1] at heq
          rw [hsimp]
          exact ⟨fun _ => heq, Or.inl heq⟩
        · rw [hg1] at hrdy
          constructor
          · intro hres2
            rw [hrdy] at hres2
            exact absurd hres2 (by decide)
          · refine Or.inr (Or.inr (Or.inr ⟨hrdy, by rw [hsimp]; exact hblk, ?_⟩))
            obtain ⟨u, hu, hstat⟩ := blockFix_blocked_upstream cfg.g (st1.length + 1)
              st1 t (by rw [hlen1]; exact htl) (by rw [hg1]; exact hrdy) hblk
            exact ⟨u, Relation.TransGen.single hu, by rw [hsimp]; exact hstat⟩
    · have hresN : resolveTask cfg s.status c = s.status.set c r.toStatus := by
        rw [hres, if_neg hfail]
      have hsimp : (⟨resolveTask cfg s.status c, s.invoked⟩ : ExecState).status
          = s.status.set c r.toStatus := by
        rw [show (⟨resolveTask cfg s.status c, s.invoked⟩ : ExecState).status
              = resolveTask cfg s.status c from rfl, hresN]
      by_cases hct : t = c
      · subst hct
        constructor
        · intro hres2
          rw [hcexec] at hres2
          exact absurd hres2 (by decide)
        · refine Or.inr (Or.inr (Or.inl ⟨hcexec, ?_, ?_⟩))
          · rw [hsimp, getD_set_self _ _ _ _ hc]
            exact builderResult_isResolved r
          · rw [hsimp, getD_set_self _ _ _ _ hc]
            exact builderResult_ne_blocked r
      · have hnew : (s.status.set c r.toStatus).getD t .ready = s.status.getD t .ready :=
          getD_set_ne _ _ _ _ _ (Ne.symm hct)
        rw [hsimp]
        exact ⟨fun _ => hnew, Or.inl hnew⟩

/-- Witness for C4: dispatching the single task of a one-task graph. -/
theorem task_status_transitions_witness :
    ((((⟨[.ready], []⟩ : ExecState)).status.getD 0 .ready).isResolved = true →
      (⟨[.executing], [0]⟩ : ExecState).status.getD 0 .ready
        = (⟨[.ready], []⟩ : ExecState).status.getD 0 .ready)
    ∧ ((⟨[.executing], [0]⟩ : ExecState).status.getD 0 .ready
          = (⟨[.ready], []⟩ : ExecState).status.getD 0 .ready
      ∨ ((⟨[.ready], []⟩ : ExecState).status.getD 0 .ready = .ready
          ∧ (⟨[.executing], [0]⟩ : ExecState).status.getD 0 .ready = .executing
          ∧ ∀ u ∈ (⟨[[]]⟩ : TaskGraph).upstreamOf 0,
              (((⟨[.ready], []⟩ : ExecState)).status.getD u .ready).isSuccessFamily = true)
      ∨ ((⟨[.ready], []⟩ : ExecState).status.getD 0 .ready = .executing
          ∧ ((⟨[.executing], [0]⟩ : ExecState).status.getD 0 .ready).isResolved = true
          ∧ (⟨[.executing], [0]⟩ : ExecState).status.getD 0 .ready ≠ .blocked)
      ∨ ((⟨[.ready], []⟩ : ExecState).status.getD 0 .ready = .ready
          ∧ (⟨[.executing], [0]⟩ : ExecState).status.getD 0 .ready = .blocked
          ∧ ∃ u, DependsOn (⟨[[]]⟩ : TaskGraph) 0 u
              ∧ ((⟨[.executing], [0]⟩ : ExecState).status.getD u .ready = .failure
                  ∨ (⟨[.executing], [0]⟩ : ExecState).status.getD u .ready = .blocked))) :=
  task_status_transitions ⟨⟨[[]]⟩, [.success], 1⟩ ⟨[.ready], []⟩ ⟨[.executing], [0]⟩
    (Step.dispatch _ 0 (by decide) (by decide) (by decide) (by decide)) 0 (by decide)

/-! ### Claim C5: the parallelism bound -/

/-- C5: for every valid parallelism value (at least 1), at every reachable
point during executeAsync the number of tasks simultaneously in the
`Executing` state is at most the parallelism bound. -/
theorem executing_at_most_parallelism (cfg : RunConfig) (s : ExecState)
    (_hp : 1 ≤ cfg.parallelism) (hs : Reachable cfg s) :
    countExecuting s.status ≤ cfg.parallelism :=
  (inv_reachable cfg s hs).exec_le

/-- Witness for C5 at the initial state of a one-task run with parallelism 1. -/
theorem executing_at_most_parallelism_witness :
    countExecuting (initState (TaskGraph.n ⟨[[]]⟩)).status ≤ 1 :=
  executing_at_most_parallelism ⟨⟨[[]]⟩, [.success], 1⟩ _ (by decide)
    Relation.ReflTransGen.refl

/-! ### Claim C2: the overall success/failure aggregation -/

/-- C2: the overall run fails iff some task resolved to `Failure`, or some
task resolved to `SuccessWithWarning` while `allowWarningsInSuccessfulBuild`
is false; in every other case the run succeeds. -/
theorem run_fails_iff (allowWarningsInSuccessfulBuild : Bool) (st : List TaskStatus) :
    runFails allowWarningsInSuccessfulBuild st = true ↔
      ((∃ x ∈ st, x = TaskStatus.failure)
        ∨ ((∃ x ∈ st, x = TaskStatus.successWithWarning)
            ∧ allowWarningsInSuccessfulBuild = false)) := by
  simp [runFails, List.any_eq_true, Bool.or_eq_true, Bool.and_eq_true,
    Bool.not_eq_true', beq_iff_eq]

/-! ### Claim C3: invalid parallelism is a configuration error -/

/-- C3: when the parallelism option is neither a positive integer nor the
reserved token for using all cores, TaskRunner construction raises a
configuration error; no runner state exists, and the pre-run state has every
task `Ready` with no Builder invoked. -/
theorem invalid_parallelism_fails_fast (numCores : Nat) (g : TaskGraph)
    (outcome : List BuilderResult) (value : String) (hmax : value ≠ "max")
    (hpos : value.data.all Char.isDigit = false ∨ digitsToNat value.data = 0) :
    (∃ msg, mkTaskRunner numCores g outcome value = Except.error msg)
    ∧ (∀ t, t < g.n → (initState g.n).status.getD t .ready = .ready)
    ∧ (initState g.n).invoked = [] := by
  refine ⟨⟨"Invalid parallelism value: " ++ value, ?_⟩, ?_, rfl⟩
  · unfold mkTaskRunner parseParallelism parsePositiveInt
    have hcond : ¬(value.data.all Char.isDigit = true ∧ 0 < digitsToNat value.data) := by
      rintro ⟨hdig, hgt⟩
      rcases hpos with hpos | hpos
      · rw [hpos] at hdig; cases hdig
      · omega
    rw [if_neg hmax, if_neg hcond]
  · intro t ht
    exact getD_replicate _ _ _ _ ht

/-- Witness for C3: the unparseable value from the unit test. -/
theorem invalid_parallelism_fails_fast_witness :
    (∃ msg, mkTaskRunner 4 ⟨[[], [0]]⟩ [.success, .success] "tequila"
        = Except.error msg)
    ∧ (∀ t, t < TaskGraph.n ⟨[[], [0]]⟩ →
        (initState (TaskGraph.n ⟨[[], [0]]⟩)).status.getD t .ready = .ready)
    ∧ (initState (TaskGraph.n ⟨[[], [0]]⟩)).invoked = [] := by
  exact invalid_parallelism_fails_fast 4 _ _ "tequila" (by decide)
    (Or.inl (by decide))

/-! ### Claim C6: collation round-trip -/

theorem applyTrace_bufs (tr : List WriteEvent) (s : CollatorState) (id : Nat) :
    (applyTrace s tr).bufs id
      = s.bufs id
          ++ (tr.filter (fun e => e.taskId == id)).map (fun e => (e.kind, e.text)) := by
  induction tr generalizing s with
  | nil => simp [applyTrace]
  | cons e rest ih =>
    rw [show applyTrace s (e :: rest) = applyTrace (applyWrite s e) rest from rfl, ih]
    by_cases hc : e.taskId = id
    · have hb : (applyWrite s e).bufs id = s.bufs id ++ [(e.kind, e.text)] := by
        simp [applyWrite, hc]
      rw [hb, List.filter_cons, if_pos (by simp [hc])]
      simp
    · have hb : (applyWrite s e).bufs id = s.bufs id := by
        simp [applyWrite]
        intro hcc
        exact absurd hcc.symm hc
      rw [hb, List.filter_cons, if_neg (by simp [hc])]

/-- C6: for every interleaved trace of writes from concurrently running tasks,
the output recovered for one task is exactly the concatenation of that task's
own writes, in write order, and is identical to what the task would have
produced running in total isolation. -/
theorem collator_round_trip (tr : List WriteEvent) (id : Nat) (own : List WriteEvent)
    (h : tr.filter (fun e => e.taskId == id) = own) :
    getOutput (applyTrace initCollator tr) id
        = String.join (own.map (fun e => e.text))
    ∧ getOutput (applyTrace initCollator tr) id
        = getOutput (applyTrace initCollator own) id := by
  have h1 : (applyTrace initCollator tr).bufs id
      = own.map (fun e => (e.kind, e.text)) := by
    rw [applyTrace_bufs, h]
    simp [initCollator]
  have hown : own.filter (fun e => e.taskId == id) = own := by
    refine List.filter_eq_self.mpr ?_
    intro e he
    rw [← h] at he
    exact (List.mem_filter.mp he).2
  have h2 : (applyTrace initCollator own).bufs id
      = own.map (fun e => (e.kind, e.text)) := by
    rw [applyTrace_bufs, hown]
    simp [initCollator]
  constructor
  · rw [getOutput, h1, List.map_map]
    rfl
  · rw [getOutput, getOutput, h1, h2]

/-- Witness for C6: task 1 writes two lines with a concurrent write by task 2
interleaved between them. -/
theorem collator_round_trip_witness :
    getOutput (applyTrace initCollator
        [⟨1, .stdoutStream, "A1"⟩, ⟨2, .stdoutStream, "B1"⟩,
          ⟨1, .stderrStream, "A2"⟩]) 1
      = String.join ([(⟨1, .stdoutStream, "A1"⟩ : WriteEvent),
          ⟨1, .stderrStream, "A2"⟩].map (fun e => e.text))
    ∧ getOutput (applyTrace initCollator
        [⟨1, .stdoutStream, "A1"⟩, ⟨2, .stdoutStream, "B1"⟩,
          ⟨1, .stderrStream, "A2"⟩]) 1
      = getOutput (applyTrace initCollator
          [(⟨1, .stdoutStream, "A1"⟩ : WriteEvent), ⟨1, .stderrStream, "A2"⟩]) 1 :=
  collator_round_trip _ 1 _ (by decide)

/-! ### Claim C8: failed tasks' stderr is always in the final report -/

/-- C8: for every run in which a task resolves to `Failure`, its retained
stderr appears in full in the final output, for both values of quiet mode. -/
theorem failure_stderr_in_report (tasks : List TaskRecord) (rec : TaskRecord)
    (h1 : rec ∈ tasks) (h2 : rec.status = TaskStatus.failure) (quietMode : Bool) :
    rec.stderrText ∈ finalReport quietMode tasks := by
  unfold finalReport
  have hmem : rec.stderrText
      ∈ (tasks.filter (fun t => t.status == TaskStatus.failure)).map
          (fun t => t.stderrText) :=
    List.mem_map.mpr ⟨rec, List.mem_filter.mpr ⟨h1, by rw [h2]; rfl⟩, rfl⟩
  simp only [List.mem_append]
  tauto

/-- Witness for C8: a single failed task with quiet mode enabled. -/
theorem failure_stderr_in_report_witness :
    "stderr of step 1" ∈ finalReport true
      [⟨"stdout+stderr", .failure, "Build step 1", "stderr of step 1"⟩] :=
  failure_stderr_in_report _ ⟨"stdout+stderr", .failure, "Build step 1", "stderr of step 1"⟩
    (by simp) rfl true

/-! ### Claim C9: setVersion validation -/

/-- C9: for a version string that is neither a valid semver version nor a
valid range, `setVersion` throws and the stored version and the editor's
modified flag are unchanged; for a valid version or range it stores the new
version and fires the change callback, which marks the editor modified. -/
theorem setVersion_spec (semverValid semverValidRange : String → Bool)
    (d : PackageJsonDependency) (modified : Bool) (v : String) :
    (semverValid v = false → semverValidRange v = false →
      setVersion semverValid semverValidRange d modified v
        = (Except.error ("Cannot set version to invalid value: " ++ v), d, modified))
    ∧ (semverValid v = true ∨ semverValidRange v = true →
      setVersion semverValid semverValidRange d modified v
        = (Except.ok (), { d with version := v }, true)) := by
  constructor
  · intro h1 h2
    simp [setVersion, h1, h2]
  · intro h
    rcases h with h | h <;> simp [setVersion, h]

/-- Witness for C9 with concrete validity predicates: an invalid string is
rejected without touching the state; a valid version is stored and the
modified flag set. -/
theorem setVersion_spec_witness :
    (setVersion (fun s => s == "1.0.0") (fun s => s == "^1.0.0")
        ⟨"lodash", "0.9.0", .regular⟩ false "tequila"
      = (Except.error ("Cannot set version to invalid value: " ++ "tequila"),
          ⟨"lodash", "0.9.0", .regular⟩, false))
    ∧ (setVersion (fun s => s == "1.0.0") (fun s => s == "^1.0.0")
        ⟨"lodash", "0.9.0", .regular⟩ false "1.0.0"
      = (Except.ok (), ⟨"lodash", "1.0.0", .regular⟩, true)) := by
  constructor
  · exact (setVersion_spec _ _ _ _ _).1 (by decide) (by decide)
  · exact (setVersion_spec _ _ _ _ _).2 (Or.inl (by decide))

/-! ### Claim C10: findProjectByShorthandName -/

theorem getProjectByName_eq_of_mem {projects : List RushConfigurationProject}
    {short : String} {p : RushConfigurationProject}
    (hnodup : (projects.map (fun q => q.packageName)).Nodup)
    (hp : p ∈ projects) (hname : p.packageName = short) :
    getProjectByName projects short = some p := by
  induction projects with
  | nil => cases hp
  | cons q rest ih =>
    rw [List.map_cons, List.nodup_cons] at hnodup
    by_cases hq : q.packageName = short
    · have hqp : p = q := by
        rcases List.mem_cons.mp hp with hp2 | hp2
        · exact hp2
        · exfalso
          apply hnodup.1
          rw [hq, ← hname]
          exact List.mem_map.mpr ⟨p, hp2, rfl⟩
      rw [hqp]
      unfold getProjectByName
      exact List.find?_cons_of_pos _ (by rw [beq_iff_eq]; exact hq)
    · have hp2 : p ∈ rest := by
        rcases List.mem_cons.mp hp with hp3 | hp3
        · exfalso; rw [hp3] at hname; exact hq hname
        · exact hp3
      unfold getProjectByName at ih ⊢
      rw [List.find?_cons_of_neg _ (by simp [hq])]
      exact ih hnodup.2 hp2

theorem findApprox_acc_of_filter_nil (u : String → String) (short : String)
    (l : List RushConfigurationProject) (acc : Option RushConfigurationProject)
    (h : l.filter (fun q => u q.packageName == short) = []) :
    findApprox u short l acc = acc := by
  induction l generalizing acc with
  | nil => rfl
  | cons p rest ih =>
    rw [List.filter_cons] at h
    by_cases hc : (u p.packageName == short) = true
    · rw [if_pos hc] at h; cases h
    · rw [if_neg hc] at h
      simp only [findApprox]
      rw [if_neg hc]
      exact ih acc h

theorem findApprox_some_of_filter_ne (u : String → String) (short : String)
    (l : List RushConfigurationProject) (p0 : RushConfigurationProject)
    (h : l.filter (fun q => u q.packageName == short) ≠ []) :
    findApprox u short l (some p0) = none := by
  induction l with
  | nil => exact absurd rfl h
  | cons p rest ih =>
    simp only [findApprox]
    by_cases hc : (u p.packageName == short) = true
    · rw [if_pos hc]
    · rw [if_neg hc]
      apply ih
      rw [List.filter_cons, if_neg hc] at h
      exact h

theorem findApprox_none_single (u : String → String) (short : String)
    (l : List RushConfigurationProject) (p : RushConfigurationProject)
    (h : l.filter (fun q => u q.packageName == short) = [p]) :
    findApprox u short l none = some p := by
  induction l with
  | nil => cases h
  | cons q rest ih =>
    rw [List.filter_cons] at h
    simp only [findApprox]
    by_cases hc : (u q.packageName == short) = true
    · rw [if_pos hc] at h
      injection h with h1 h2
      rw [if_pos hc, findApprox_acc_of_filter_nil u short rest (some q) h2, h1]
    · rw [if_neg hc] at h
      rw [if_neg hc]
      exact ih h

theorem findApprox_none_of_two (u : String → String) (short : String)
    (l : List RushConfigurationProject)
    (h : 2 ≤ (l.filter (fun q => u q.packageName == short)).length) :
    findApprox u short l none = none := by
  induction l with
  | nil => cases h
  | cons q rest ih =>
    rw [List.filter_cons] at h
    simp only [findApprox]
    by_cases hc : (u q.packageName == short) = true
    · rw [if_pos hc] at h
      rw [if_pos hc]
      have hne : rest.filter (fun q2 => u q2.packageName == short) ≠ [] := by
        intro hnil
        rw [hnil] at h
        simp at h
      exact findApprox_some_of_filter_ne u short rest q hne
    · rw [if_neg hc] at h
      rw [if_neg hc]
      exact ih h

/-- C10: findProjectByShorthandName returns the exact full-package-name match
when one exists; otherwise it returns the unique project whose unscoped name
matches, and returns none when two or more projects share that unscoped name. -/
theorem findProjectByShorthandName_spec (getUnscopedName : String → String)
    (projects : List RushConfigurationProject) (short : String)
    (hnodup : (projects.map (fun q => q.packageName)).Nodup) :
    (∀ p ∈ projects, p.packageName = short →
        findProjectByShorthandName getUnscopedName projects short = some p)
    ∧ ((∀ p ∈ projects, p.packageName ≠ short) →
        (∀ p, projects.filter
              (fun q => getUnscopedName q.packageName == short) = [p] →
            findProjectByShorthandName getUnscopedName projects short = some p)
        ∧ (2 ≤ (projects.filter
              (fun q => getUnscopedName q.packageName == short)).length →
            findProjectByShorthandName getUnscopedName projects short = none)) := by
  constructor
  · intro p hp hname
    unfold findProjectByShorthandName
    rw [getProjectByName_eq_of_mem hnodup hp hname]
  · intro hnone
    have hget : getProjectByName projects short = none := by
      unfold getProjectByName
      refine List.find?_eq_none.mpr ?_
      intro q hq
      rw [beq_iff_eq]
      exact hnone q hq
    constructor
    · intro p hp
      unfold findProjectByShorthandName
      rw [hget]
      exact findApprox_none_single _ _ _ _ hp
    · intro h2
      unfold findProjectByShorthandName
      rw [hget]
      exact findApprox_none_of_two _ _ _ h2

/-- Witness for C10: an exact full-name match wins, and two projects sharing
the unscoped name `x` make the shorthand ambiguous. -/
theorem findProjectByShorthandName_spec_witness :
    findProjectByShorthandName
        (fun s => if s = "@a/x" then "x" else if s = "@b/x" then "x" else s)
        [⟨"@a/x"⟩, ⟨"@b/x"⟩, ⟨"y"⟩] "y" = some ⟨"y"⟩
    ∧ findProjectByShorthandName
        (fun s => if s = "@a/x" then "x" else if s = "@b/x" then "x" else s)
        [⟨"@a/x"⟩, ⟨"@b/x"⟩, ⟨"y"⟩] "x" = none := by
  constructor
  · exact (findProjectByShorthandName_spec _ _ _ (by decide)).1 ⟨"y"⟩ (by decide) rfl
  · exact ((findProjectByShorthandName_spec _ _ _ (by decide)).2 (by decide)).2 (by decide)

/-! ### Claim C7: cyclic graphs are rejected with a concrete cycle -/

theorem iterFix_isFix_inv {α : Type} [DecidableEq α] (f : α → α) (P : α → Prop)
    (μ : α → Nat) (hP : ∀ x, P x → P (f x))
    (hf : ∀ x, P x → f x ≠ x → μ (f x) < μ x) :
    ∀ (fuel : Nat) (x : α), P x → μ x ≤ fuel →
      f (iterFix f fuel x) = iterFix f fuel x ∧ P (iterFix f fuel x) := by
  intro fuel
  induction fuel with
  | zero =>
    intro x hx hm
    by_cases h : f x = x
    · exact ⟨by simpa [iterFix] using h, by simpa [iterFix] using hx⟩
    · have := hf x hx h; omega
  | succ n ih =>
    intro x hx hm
    by_cases h : f x = x
    · simp only [iterFix, if_pos h]
      exact ⟨h, hx⟩
    · have hlt := hf x hx h
      simp only [iterFix, if_neg h]
      exact ih (f x) (hP x hx) (by omega)

theorem nodup_bounded_length {l : List Nat} {n : Nat} (h1 : l.Nodup)
    (h2 : ∀ x ∈ l, x < n) : l.length ≤ n := by
  have hcard : l.toFinset.card = l.length := List.toFinset_card_of_nodup h1
  have hsub : l.toFinset ⊆ Finset.range n := by
    intro x hx
    rw [List.mem_toFinset] at hx
    exact Finset.mem_range.mpr (h2 x hx)
  have h3 := Finset.card_le_card hsub
  rw [hcard, Finset.card_range] at h3
  exact h3

theorem mem_of_nodup_length_eq {l : List Nat} {n : Nat} (h1 : l.Nodup)
    (h2 : ∀ x ∈ l, x < n) (h3 : l.length = n) : ∀ t, t < n → t ∈ l := by
  have hsub : l.toFinset ⊆ Finset.range n := by
    intro x hx
    rw [List.mem_toFinset] at hx
    exact Finset.mem_range.mpr (h2 x hx)
  have hcard : (Finset.range n).card ≤ l.toFinset.card := by
    rw [List.toFinset_card_of_nodup h1, h3, Finset.card_range]
  have heq : l.toFinset = Finset.range n := Finset.eq_of_subset_of_card_le hsub hcard
  intro t ht
  have h4 : t ∈ l.toFinset := by rw [heq]; exact Finset.mem_range.mpr ht
  exact List.mem_toFinset.mp h4

theorem topoRound_mem_filter {g : TaskGraph} {done : List Nat} {t : Nat}
    (ht : t ∈ (List.range g.n).filter
      (fun t2 => decide (t2 ∉ done) && (g.upstreamOf t2).all (fun u => decide (u ∈ done)))) :
    t < g.n ∧ t ∉ done ∧ ∀ u ∈ g.upstreamOf t, u ∈ done := by
  rw [List.mem_filter] at ht
  obtain ⟨htr, hcond⟩ := ht
  rw [Bool.and_eq_true, decide_eq_true_eq, List.all_eq_true] at hcond
  refine ⟨List.mem_range.mp htr, hcond.1, ?_⟩
  intro u hu
  have h2 := hcond.2 u hu
  rwa [decide_eq_true_eq] at h2

theorem topoRound_pres (g : TaskGraph) (done : List Nat)
    (h : done.Nodup ∧ (∀ x ∈ done, x < g.n) ∧ TopoOrdered g done) :
    (topoRound g done).Nodup ∧ (∀ x ∈ topoRound g done, x < g.n)
      ∧ TopoOrdered g (topoRound g done) := by
  obtain ⟨hnd, hbd, hord⟩ := h
  refine ⟨?_, ?_, ?_⟩
  · refine List.Nodup.append hnd (List.Nodup.filter _ (List.nodup_range _)) ?_
    intro a ha haf
    exact (topoRound_mem_filter haf).2.1 ha
  · intro x hx
    rcases List.mem_append.mp hx with hx | hx
    · exact hbd x hx
    · exact (topoRound_mem_filter hx).1
  · intro t htmem u hu
    rcases List.mem_append.mp htmem with htm | htm
    · obtain ⟨humem, hlt⟩ := hord t htm u hu
      refine ⟨List.mem_append.mpr (Or.inl humem), ?_⟩
      rw [show topoRound g done = done ++ _ from rfl,
        List.indexOf_append_of_mem humem, List.indexOf_append_of_mem htm]
      exact hlt
    · have hf := topoRound_mem_filter htm
      have hum : u ∈ done := hf.2.2 u hu
      refine ⟨List.mem_append.mpr (Or.inl hum), ?_⟩
      rw [show topoRound g done = done ++ _ from rfl,
        List.indexOf_append_of_mem hum, List.indexOf_append_of_not_mem hf.2.1]
      have h1 : List.indexOf u done < done.length := List.indexOf_lt_length.mpr hum
      omega

theorem topoRound_decrease (g : TaskGraph) (done : List Nat)
    (h : done.Nodup ∧ (∀ x ∈ done, x < g.n) ∧ TopoOrdered g done)
    (hne : topoRound g done ≠ done) :
    g.n - (topoRound g done).length < g.n - done.length := by
  have hpres := topoRound_pres g done h
  have hlen : (topoRound g done).length ≤ g.n := nodup_bounded_length hpres.1 hpres.2.1
  have hgt : done.length < (topoRound g done).length := by
    rw [show topoRound g done = done ++ _ from rfl, List.length_append]
    have hfne : ((List.range g.n).filter
        (fun t2 => decide (t2 ∉ done) && (g.upstreamOf t2).all
          (fun u => decide (u ∈ done)))).length ≠ 0 := by
      intro h0
      apply hne
      rw [show topoRound g done = done ++ _ from rfl,
        List.eq_nil_of_length_eq_zero h0, List.append_nil]
    omega
  omega

theorem topoIter_fix (g : TaskGraph) :
    topoRound g (topoIter g (g.n + 1) []) = topoIter g (g.n + 1) []
    ∧ (topoIter g (g.n + 1) []).Nodup
    ∧ (∀ x ∈ topoIter g (g.n + 1) [], x < g.n)
    ∧ TopoOrdered g (topoIter g (g.n + 1) []) := by
  have h := iterFix_isFix_inv (topoRound g)
    (fun d => d.Nodup ∧ (∀ x ∈ d, x < g.n) ∧ TopoOrdered g d)
    (fun d => g.n - d.length)
    (topoRound_pres g) (topoRound_decrease g) (g.n + 1) []
    ⟨List.nodup_nil, fun x hx => absurd hx (List.not_mem_nil x),
      fun t ht => absurd ht (List.not_mem_nil t)⟩
    (by simp)
  exact ⟨h.1, h.2⟩

theorem no_cycle_of_ordered {g : TaskGraph} {done : List Nat}
    (hord : TopoOrdered g done) {t u : Nat} (hdep : DependsOn g t u) (ht : t ∈ done) :
    u ∈ done ∧ List.indexOf u done < List.indexOf t done := by
  unfold DependsOn at hdep
  induction hdep with
  | single hedge => exact hord t ht _ hedge
  | tail hsteps hedge ih =>
    obtain ⟨hbmem, hblt⟩ := ih
    obtain ⟨hcmem, hclt⟩ := hord _ hbmem _ hedge
    exact ⟨hcmem, Nat.lt_trans hclt hblt⟩

theorem transGen_head_edge {r : Nat → Nat → Prop} {t u : Nat}
    (h : Relation.TransGen r t u) : ∃ b, r t b := by
  induction h using Relation.TransGen.head_induction_on with
  | base hedge => exact ⟨_, hedge⟩
  | ih hedge _ _ => exact ⟨_, hedge⟩

theorem fix_remaining_closure (g : TaskGraph) (done : List Nat)
    (hwf : g.WellFormed) (hfix : topoRound g done = done) :
    ∀ t, t < g.n → t ∉ done →
      chooseUndone g done t ∈ g.upstreamOf t
      ∧ chooseUndone g done t < g.n ∧ chooseUndone g done t ∉ done := by
  intro t htn htd
  have hemp : (List.range g.n).filter
      (fun t2 => decide (t2 ∉ done) && (g.upstreamOf t2).all
        (fun u => decide (u ∈ done))) = [] := by
    have hlen := congrArg List.length hfix
    rw [show topoRound g done = done ++ _ from rfl, List.length_append] at hlen
    exact List.eq_nil_of_length_eq_zero (by omega)
  have hnall : ¬((g.upstreamOf t).all (fun u => decide (u ∈ done)) = true) := by
    intro hall
    have htf : t ∈ (List.range g.n).filter
        (fun t2 => decide (t2 ∉ done) && (g.upstreamOf t2).all
          (fun u => decide (u ∈ done))) := by
      rw [List.mem_filter]
      refine ⟨List.mem_range.mpr htn, ?_⟩
      rw [Bool.and_eq_true, decide_eq_true_eq]
      exact ⟨htd, hall⟩
    rw [hemp] at htf
    cases htf
  rw [List.all_eq_true] at hnall
  push_neg at hnall
  obtain ⟨u, hu, hun⟩ := hnall
  have hun2 : u ∉ done := by
    intro hm
    exact hun (decide_eq_true hm)
  have hfind : ∃ w, (g.upstreamOf t).find? (fun u2 => decide (u2 ∉ done)) = some w := by
    cases hf : (g.upstreamOf t).find? (fun u2 => decide (u2 ∉ done)) with
    | some w => exact ⟨w, rfl⟩
    | none =>
      exfalso
      have h2 := List.find?_eq_none.mp hf u hu
      rw [decide_eq_true_eq] at h2
      exact h2 hun2
  obtain ⟨w, hw⟩ := hfind
  have hwProp := List.find?_some hw
  have hwmem := List.mem_of_find?_eq_some hw
  rw [decide_eq_true_eq] at hwProp
  rw [show chooseUndone g done t
      = ((g.upstreamOf t).find? (fun u2 => decide (u2 ∉ done))).getD 0 from rfl, hw]
  exact ⟨hwmem, hwf t htn w hwmem, hwProp⟩

theorem getD_append_left {α : Type} (l l' : List α) (i : Nat) (d : α)
    (h : i < l.length) : (l ++ l').getD i d = l.getD i d := by
  induction l generalizing i with
  | nil => cases h
  | cons x xs ih =>
    cases i with
    | zero => rfl
    | succ j => exact ih j (by simpa using h)

theorem getD_append_length {α : Type} (l : List α) (x d : α) :
    (l ++ [x]).getD l.length d = x := by
  induction l with
  | nil => rfl
  | cons y ys ih => exact ih

theorem getD_drop {α : Type} (l : List α) (i k : Nat) (d : α) :
    (l.drop i).getD k d = l.getD (i + k) d := by
  induction l generalizing i with
  | nil => simp
  | cons x xs ih =>
    cases i with
    | zero => simp
    | succ j =>
      rw [List.drop_succ_cons, ih j, show j + 1 + k = (j + k) + 1 from by omega,
        List.getD_cons_succ]

theorem getD_mem {α : Type} (l : List α) (i : Nat) (d : α) (h : i < l.length) :
    l.getD i d ∈ l := by
  rw [List.getD_eq_getElem _ _ h]
  exact List.getElem_mem h

theorem walkToCycle_spec (g : TaskGraph) (f : Nat → Nat) (P : Nat → Prop)
    (hP : ∀ t, P t → f t ∈ g.upstreamOf t ∧ P (f t))
    (hbound : ∀ t, P t → t < g.n) :
    ∀ (fuel : Nat) (path : List Nat) (cur : Nat),
      path.Nodup → (∀ x ∈ path, P x) → P cur →
      (∀ i, i + 1 < path.length → path.getD (i + 1) 0 = f (path.getD i 0)) →
      (path ≠ [] → cur = f (path.getD (path.length - 1) 0)) →
      g.n + 1 ≤ fuel + path.length →
      IsCycleList g (walkToCycle f fuel path cur) := by
  intro fuel
  induction fuel with
  | zero =>
    intro path cur hnd hallP hcur hchain hext hfuel
    exfalso
    have hlen : path.length ≤ g.n :=
      nodup_bounded_length hnd (fun x hx => hbound x (hallP x hx))
    omega
  | succ n ih =>
    intro path cur hnd hallP hcur hchain hext hfuel
    have hunfold : walkToCycle f (n + 1) path cur
        = if cur ∈ path then path.drop (List.indexOf cur path)
          else walkToCycle f n (path ++ [cur]) (f cur) := rfl
    rw [hunfold]
    by_cases hmem : cur ∈ path
    · rw [if_pos hmem]
      have hi : List.indexOf cur path < path.length := List.indexOf_lt_length.mpr hmem
      set i := List.indexOf cur path with hidef
      set c := path.drop i with hcdef
      have hlenc : c.length = path.length - i := List.length_drop i path
      have hcur_eq : path.getD i 0 = cur := by
        rw [List.getD_eq_getElem _ _ hi]
        exact List.getElem_indexOf hi
      refine ⟨?_, ?_, ?_⟩
      · intro hc
        have hclen0 := congrArg List.length hc
        rw [hlenc] at hclen0
        simp at hclen0
        omega
      · intro k hk
        rw [hlenc] at hk
        have h1 : c.getD (k + 1) 0 = path.getD (i + (k + 1)) 0 := getD_drop path i (k + 1) 0
        have h2 : c.getD k 0 = path.getD (i + k) 0 := getD_drop path i k 0
        have h3 : path.getD (i + k + 1) 0 = f (path.getD (i + k) 0) :=
          hchain (i + k) (by omega)
        have hPk : P (path.getD (i + k) 0) :=
          hallP _ (getD_mem path (i + k) 0 (by omega))
        rw [h1, h2, show i + (k + 1) = i + k + 1 from by omega, h3]
        exact (hP _ hPk).1
      · have hpne : path ≠ [] := by
          intro hp
          rw [hp] at hmem
          cases hmem
        have hplen : 0 < path.length := List.length_pos.mpr hpne
        have hext2 : cur = f (path.getD (path.length - 1) 0) := hext hpne
        have hlast : c.getD (c.length - 1) 0 = path.getD (path.length - 1) 0 := by
          rw [hcdef, getD_drop path i (c.length - 1) 0]
          congr 1
          rw [hlenc]
          omega
        have h0 : c.getD 0 0 = cur := by
          rw [hcdef, getD_drop path i 0 0, Nat.add_zero]
          exact hcur_eq
        have hPlast : P (path.getD (path.length - 1) 0) :=
          hallP _ (getD_mem path (path.length - 1) 0 (by omega))
        rw [h0, hlast, hext2]
        exact (hP _ hPlast).1
    · rw [if_neg hmem]
      refine ih (path ++ [cur]) (f cur) ?_ ?_ ?_ ?_ ?_ ?_
      · refine List.Nodup.append hnd (List.nodup_singleton cur) ?_
        intro a ha hb
        rw [List.mem_singleton] at hb
        subst hb
        exact hmem ha
      · intro x hx
        rcases List.mem_append.mp hx with hx | hx
        · exact hallP x hx
        · rw [List.mem_singleton] at hx
          subst hx
          exact hcur
      · exact (hP cur hcur).2
      · intro idx hidx
        rw [List.length_append, List.length_singleton] at hidx
        by_cases hlt : idx + 1 < path.length
        · rw [getD_append_left path [cur] (idx + 1) 0 hlt,
            getD_append_left path [cur] idx 0 (by omega)]
          exact hchain idx hlt
        · have hieq : idx + 1 = path.length := by omega
          rw [hieq, getD_append_length path cur 0,
            getD_append_left path [cur] idx 0 (by omega)]
          have hpne : path ≠ [] := by
            intro hp
            rw [hp] at hieq
            simp at hieq
          have hval := hext hpne
          rw [show idx = path.length - 1 from by omega]
          exact hval
      · intro _
        rw [List.length_append, List.length_singleton,
          show path.length + 1 - 1 = path.length from by omega,
          getD_append_length path cur 0]
      · rw [List.length_append, List.length_singleton]
        omega

/-- C7: for every well-formed operation graph containing a cycle (some
operation depending transitively on itself), the operation graph builder fails
with an error naming one concrete cycle, and no scheduler state is ever
created, so zero tasks are dispatched. -/
theorem cyclic_graph_rejected (g : TaskGraph) (hwf : g.WellFormed)
    (hcyc : ∃ t, DependsOn g t t) :
    ∃ c, buildGraphAndInit g = Except.error c ∧ IsCycleList g c
      ∧ ∀ st, buildGraphAndInit g ≠ Except.ok st := by
  obtain ⟨t0, hdep⟩ := hcyc
  obtain ⟨hfix, hnd, hbd, hord⟩ := topoIter_fix g
  set done := topoIter g (g.n + 1) [] with hdone
  have hincomplete : done.length ≠ g.n := by
    intro hlen
    have ht0n : t0 < g.n := by
      obtain ⟨b, hb⟩ := transGen_head_edge hdep
      exact upstream_edge_lt_n hb
    have ht0mem : t0 ∈ done := mem_of_nodup_length_eq hnd hbd hlen t0 ht0n
    have h2 := (no_cycle_of_ordered hord hdep ht0mem).2
    omega
  have hbuild : buildOperationGraph g = Except.error (extractCycle g done) := by
    unfold buildOperationGraph
    rw [← hdone, if_neg hincomplete]
  have hcycle : IsCycleList g (extractCycle g done) := by
    unfold extractCycle
    cases hrem : (List.range g.n).filter (fun t => decide (t ∉ done)) with
    | nil =>
      exfalso
      have hall : ∀ x, x < g.n → x ∈ done := by
        intro x hx
        by_contra hxd
        have hx2 : x ∈ (List.range g.n).filter (fun t => decide (t ∉ done)) := by
          rw [List.mem_filter]
          exact ⟨List.mem_range.mpr hx, decide_eq_true hxd⟩
        rw [hrem] at hx2
        cases hx2
      have hge : g.n ≤ done.length := by
        have hsub : Finset.range g.n ⊆ done.toFinset := by
          intro x hx
          rw [List.mem_toFinset]
          exact hall x (Finset.mem_range.mp hx)
        have h2 := Finset.card_le_card hsub
        rw [Finset.card_range] at h2
        exact le_trans h2 (List.toFinset_card_le done)
      have hle : done.length ≤ g.n := nodup_bounded_length hnd hbd
      omega
    | cons r rest =>
      have hrP : r < g.n ∧ r ∉ done := by
        have hr2 : r ∈ (List.range g.n).filter (fun t => decide (t ∉ done)) := by
          rw [hrem]
          exact List.mem_cons_self r rest
        rw [List.mem_filter] at hr2
        exact ⟨List.mem_range.mp hr2.1, of_decide_eq_true hr2.2⟩
      refine walkToCycle_spec g (chooseUndone g done) (fun t => t < g.n ∧ t ∉ done)
        ?_ (fun t ht => ht.1) (g.n + 1) [] r List.nodup_nil
        (fun x hx => absurd hx (List.not_mem_nil x)) hrP
        (by intro i hi; simp at hi) (fun hne => absurd rfl hne) (by simp)
      intro t ht
      obtain ⟨h1, h2, h3⟩ := fix_remaining_closure g done hwf hfix t ht.1 ht.2
      exact ⟨h1, h2, h3⟩
  refine ⟨extractCycle g done, ?_, hcycle, ?_⟩
  · unfold buildGraphAndInit
    rw [hbuild]
  · intro st hst
    unfold buildGraphAndInit at hst
    rw [hbuild] at hst
    cases hst

/-- Witness for C7: the two-task cycle A → B → A. -/
theorem cyclic_graph_rejected_witness :
    ∃ c, buildGraphAndInit ⟨[[1], [0]]⟩ = Except.error c
      ∧ IsCycleList ⟨[[1], [0]]⟩ c
      ∧ ∀ st, buildGraphAndInit ⟨[[1], [0]]⟩ ≠ Except.ok st :=
  cyclic_graph_rejected ⟨[[1], [0]]⟩ (by unfold TaskGraph.WellFormed; decide)
    ⟨0, Relation.TransGen.tail
      (Relation.TransGen.single
        (show (1 : Nat) ∈ TaskGraph.upstreamOf ⟨[[1], [0]]⟩ 0 by decide))
      (show (0 : Nat) ∈ TaskGraph.upstreamOf ⟨[[1], [0]]⟩ 1 by decide)⟩

end RushStack
